import Mathlib

/-!
# FontShrink: the compaction pass of `FontShrink.cpp`

A shallow embedding of `isWantedChar` and of `main` (the compaction loop and
the three `fprintf` sections), followed by theorems about them.

Conventions of the embedding.

* `uint8_t` / `uint16_t` values are natural numbers, `int8_t` and `int` values
  are integers.  The only narrowing store of the program,
  `newGlyphs[i].bitmapOffset = newBitmapOffset` (an `int` into a `uint16_t`),
  is written with an explicit `% 65536`.  The `int` variables themselves are
  not reduced: with 16-bit source offsets the cursor grows by less than 65536
  per glyph and stays far below `2^31` for any glyph table of fewer than 32768
  entries.
* `isWantedChar` takes a `char`; the call `isWantedChar(i + 32)` narrows the
  `int` argument to 8 bits, written `(i + 32) % 256`.
* The font header (`FreeSansBold24pt7b.h`) is not part of the program text; the
  two arrays it declares are the fields of `SourceFont`.
* A read outside the source arrays has no value in C.  It is a `Fault` here,
  with one exception: the loop reads `Glyphs[i+1]` also for the last index, so
  the glyph-sized cell directly behind the glyph array is part of the input
  (`SourceFont.sentinel`, `none` when nothing can be read there).
* `newBitmaps` is allocated with `oldBitmapArraySize` cells.  A store of the
  copy loop at an index outside the allocation is a `Fault` as well.  The list
  `PassState.newBitmaps` holds the cells written so far (cells
  `0 .. newBitmapOffset-1`).  The store `newBitmaps[0] = 0x00` in front of the
  loop is taken to be inside the allocation: an array of C++ has at least one
  element.
-/

namespace FontShrink

/-- The record `GFXglyph` (data stored per glyph). -/
structure GFXglyph where
  /-- Field `uint16_t bitmapOffset`. -/
  bitmapOffset : Nat
  /-- Field `uint8_t width`. -/
  width : Nat
  /-- Field `uint8_t height`. -/
  height : Nat
  /-- Field `uint8_t xAdvance`. -/
  xAdvance : Nat
  /-- Field `int8_t xOffset`. -/
  xOffset : Int
  /-- Field `int8_t yOffset`. -/
  yOffset : Int
deriving DecidableEq, Repr

/-- The source font as the program sees it: the two arrays of the included
header, and the cell behind the glyph array that `Glyphs[i+1]` reaches when
`i` is the last index. -/
structure SourceFont where
  /-- Array `FreeSansBold24pt7bBitmaps`; `oldBitmapArraySize` is its length. -/
  Bitmaps : List Nat
  /-- Array `FreeSansBold24pt7bGlyphs`; `oldGlyphArraySize` is its length. -/
  Glyphs : List GFXglyph
  /-- What a read of `Glyphs[oldGlyphArraySize]` yields, if it yields anything. -/
  sentinel : Option GFXglyph
deriving DecidableEq, Repr

/-- Memory accesses of the program that have no defined value. -/
inductive Fault where
  /-- Read of `FreeSansBold24pt7bGlyphs[k]` with nothing readable at `k`. -/
  | glyphRead (k : Nat)
  /-- Read of `FreeSansBold24pt7bBitmaps[j]` with `j` outside the array. -/
  | bitmapRead (j : Nat)
  /-- Store to `newBitmaps[k]` with `k` outside the allocation. -/
  | bitmapWrite (k : Nat)
  /-- Read of `newGlyphs[i]` with `i` outside the allocated table. -/
  | newGlyphRead (i : Int)
deriving DecidableEq, Repr

deriving instance DecidableEq for Except

/-- The value `sizeof(FreeSansBold24pt7bBitmaps)`. -/
def oldBitmapArraySize (F : SourceFont) : Nat := F.Bitmaps.length

/-- The value `sizeof(FreeSansBold24pt7bGlyphs) / sizeof(GFXglyph)`. -/
def oldGlyphArraySize (F : SourceFont) : Nat := F.Glyphs.length

/-- The C function `strlen`: the number of characters before the first NUL (the
end of the list stands for the terminator of the literal). -/
def strlen (s : List Nat) : Nat := (s.takeWhile (fun c => c ≠ 0)).length

/-- The function `isWantedChar`: index of the first position below
`strlen(wantedCharacters)` holding `c`, or `-1`. -/
def isWantedChar (wantedCharacters : List Nat) (c : Nat) : Int :=
  match (List.range (strlen wantedCharacters)).find?
      (fun i => decide (wantedCharacters[i]? = some c)) with
  | some i => (i : Int)
  | none => -1

/-- The local variables of `main` that the compaction loop updates. -/
structure PassState where
  /-- Cells `0 .. newBitmapOffset-1` of `newBitmaps`, in index order. -/
  newBitmaps : List Nat
  /-- Entries of `newGlyphs` written so far, in index order. -/
  newGlyphs : List GFXglyph
  /-- The write cursor `newBitmapOffset`. -/
  newBitmapOffset : Nat
  /-- The variable `firstUseableChar`. -/
  firstUseableChar : Int
  /-- The variable `lastUseableChar`. -/
  lastUseableChar : Int
deriving DecidableEq, Repr

/-- State before the loop: `newBitmaps[0] = 0x00`, `newBitmapOffset = 1`,
both extents `-1`. -/
def initState : PassState :=
  { newBitmaps := [0], newGlyphs := [], newBitmapOffset := 1,
    firstUseableChar := -1, lastUseableChar := -1 }

/-- Read of `FreeSansBold24pt7bGlyphs[k]`. -/
def readGlyph (F : SourceFont) (k : Nat) : Except Fault GFXglyph :=
  match (F.Glyphs ++ F.sentinel.toList)[k]? with
  | some g => .ok g
  | none => .error (.glyphRead k)

/-- The inner loop `for (j = startOffsetPointer; j < endOffsetPointer; ++j)`,
with `todo` iterations left.  The assignment
`newBitmaps[newBitmapOffset] = FreeSansBold24pt7bBitmaps[j]` reads the source
byte and stores it in the buffer of `oldBitmapArraySize = Bitmaps.length`
cells. -/
def copyLoop (Bitmaps : List Nat) : Nat → Nat → PassState → Except Fault PassState
  | 0, _, st => .ok st
  | todo + 1, j, st =>
    match Bitmaps[j]? with
    | none => .error (.bitmapRead j)
    | some b =>
      if st.newBitmapOffset < Bitmaps.length then
        copyLoop Bitmaps todo (j + 1)
          { st with newBitmaps := st.newBitmaps ++ [b],
                    newBitmapOffset := st.newBitmapOffset + 1 }
      else .error (.bitmapWrite st.newBitmapOffset)

/-- The glyph written for a character that is not wanted (the `else` branch). -/
def droppedGlyph : GFXglyph :=
  { bitmapOffset := 0, width := 0, height := 0, xAdvance := 13, xOffset := 0, yOffset := 1 }

/-- One iteration of the outer loop, for glyph index `i`. -/
def glyphStep (F : SourceFont) (wantedCharacters : List Nat) (st : PassState) (i : Nat) :
    Except Fault PassState :=
  if 0 ≤ isWantedChar wantedCharacters ((i + 32) % 256) then
    match readGlyph F i with
    | .error e => .error e
    | .ok g =>
      match readGlyph F (i + 1) with
      | .error e => .error e
      | .ok next =>
        let startOffsetPointer := g.bitmapOffset
        let endOffsetPointer := next.bitmapOffset
        match copyLoop F.Bitmaps (endOffsetPointer - startOffsetPointer) startOffsetPointer
            { st with newGlyphs := st.newGlyphs ++
                [{ g with bitmapOffset := st.newBitmapOffset % 65536 }] } with
        | .error e => .error e
        | .ok st1 =>
          .ok { st1 with
                firstUseableChar :=
                  if st1.firstUseableChar = -1 then (i : Int) else st1.firstUseableChar,
                lastUseableChar := (i : Int) }
  else
    .ok { st with newGlyphs := st.newGlyphs ++ [droppedGlyph] }

/-- The outer loop over a list of glyph indices. -/
def passLoop (F : SourceFont) (wantedCharacters : List Nat) :
    List Nat → PassState → Except Fault PassState
  | [], st => .ok st
  | i :: rest, st =>
    match glyphStep F wantedCharacters st i with
    | .error e => .error e
    | .ok st1 => passLoop F wantedCharacters rest st1

/-- The compaction pass of `main`: `for (i = 0; i < oldGlyphArraySize; ++i)`
from the initial state. -/
def compact (F : SourceFont) (wantedCharacters : List Nat) : Except Fault PassState :=
  passLoop F wantedCharacters (List.range (oldGlyphArraySize F)) initState

/-- The cells `0 .. newBitmapOffset-1` of a state all lie inside the allocation
of `oldBitmapArraySize` cells. -/
def writesInBounds (F : SourceFont) (st : PassState) : Prop :=
  st.newBitmapOffset ≤ oldBitmapArraySize F

instance (F : SourceFont) (st : PassState) : Decidable (writesInBounds F st) := by
  unfold writesInBounds; infer_instance

/-! ### The three `fprintf` sections of `main`

`stdout` is a string whose characters stand for the bytes written.  With
`__DEBUG__` undefined, `debugFlag` is `0` and nothing is written to `stderr`. -/

/-- One uppercase hexadecimal digit. -/
def hexDigit (d : Nat) : Char := "0123456789ABCDEF".toList.getD d '0'

/-- The conversion `%02X` of an `int` argument (read as a 32-bit unsigned). -/
def fmtX02 (v : Int) : String :=
  let u := (v % 4294967296).toNat
  if u < 256 then String.mk [hexDigit (u / 16), hexDigit (u % 16)]
  else String.mk ((Nat.toDigits 16 u).map Char.toUpper)

/-- The conversion `%4d`: decimal, right-aligned in a field of four. -/
def fmtD4 (v : Int) : String :=
  let s := toString v
  String.mk (List.replicate (4 - s.length) ' ') ++ s

/-- The conversion `%c` of an `int` argument (its low byte). -/
def fmtC (v : Int) : Char := Char.ofNat (v % 256).toNat

/-- The loop `for (i = 0; i < newBitmapOffset; ++i)` of the bitmap section,
over a list of indices. -/
def emitBitmapLoop (newBitmaps : List Nat) : List Nat → String
  | [] => ""
  | i :: rest =>
    "0x" ++ fmtX02 (newBitmaps.getD i 0) ++ ", " ++
      (if 0 < i ∧ i % 12 = 0 then "\n" else "") ++ emitBitmapLoop newBitmaps rest

/-- The bitmap array declaration: header, the values, the padding `0x00`. -/
def emitBitmaps (st : PassState) : String :=
  "const uint8_t FreeSansBold24pt7bBitmaps[] PROGMEM = \x7b\n" ++
    emitBitmapLoop st.newBitmaps (List.range st.newBitmapOffset) ++ "0x00 \x7d;\n\n"

/-- Header line of the glyph array declaration. -/
def glyphHeader : String := "const GFXglyph FreeSansBold24pt7bGlyphs[] PROGMEM = \x7b\n"

/-- The six `%4d` fields of a glyph record, between the braces. -/
def glyphFields (g : GFXglyph) : String :=
  "\x7b " ++ fmtD4 g.bitmapOffset ++ ", " ++ fmtD4 g.width ++ ", " ++ fmtD4 g.height ++ ", " ++
    fmtD4 g.xAdvance ++ ", " ++ fmtD4 g.xOffset ++ ", " ++ fmtD4 g.yOffset ++ " \x7d"

/-- The trailing comment of a glyph row: the code in hex and as a character. -/
def glyphComment (i : Int) : String :=
  " // 0x" ++ fmtX02 (i + 32) ++ " \x27" ++ String.singleton (fmtC (i + 32)) ++ "\x27\n"

/-- A row printed inside the loop over the usable characters. -/
def glyphRow (g : GFXglyph) (i : Int) : String := glyphFields g ++ "," ++ glyphComment i

/-- The row printed after the loop, which closes the array. -/
def glyphLastRow (g : GFXglyph) (i : Int) : String :=
  glyphFields g ++ " \x7d;" ++ glyphComment i ++ "\n"

/-- Read of `newGlyphs[i]` in the glyph section.  The table has
`oldGlyphArraySize` entries; index `-1` reaches the heap cell below it
(`heapBelow`, `none` when nothing can be read there). -/
def readNewGlyph (heapBelow : Option GFXglyph) (newGlyphs : List GFXglyph) (i : Int) :
    Except Fault GFXglyph :=
  if i = -1 then
    match heapBelow with
    | some g => .ok g
    | none => .error (.newGlyphRead i)
  else if i < 0 then .error (.newGlyphRead i)
  else
    match newGlyphs[i.toNat]? with
    | some g => .ok g
    | none => .error (.newGlyphRead i)

/-- The loop `for (i = firstUseableChar; i < lastUseableChar; ++i)` with `todo`
iterations left; returns the text written and the fault that stopped it, if any. -/
def emitGlyphLoop (heapBelow : Option GFXglyph) (newGlyphs : List GFXglyph) :
    Nat → Int → String → String × Option Fault
  | 0, _, out => (out, none)
  | todo + 1, i, out =>
    match readNewGlyph heapBelow newGlyphs i with
    | .error e => (out, some e)
    | .ok g => emitGlyphLoop heapBelow newGlyphs todo (i + 1) (out ++ glyphRow g i)

/-- The font descriptor declaration; `yAdvance` is the literal `56`. -/
def emitDescriptor (st : PassState) : String :=
  "const GFXfont FreeSansBold24pt7b PROGMEM = \x7b\n" ++
    "(uint8_t  *)FreeSansBold24pt7bBitmaps,\n" ++
    "(GFXglyph *)FreeSansBold24pt7bGlyphs,\n" ++
    "0x" ++ fmtX02 (st.firstUseableChar + 32) ++ ", 0x" ++
    fmtX02 (st.lastUseableChar + 32) ++ ", 56 \x7d;\n"

/-- What a run of the program leaves behind: the text on `stdout` and either
the value returned by `main` or the fault that ended the run. -/
structure Outcome where
  /-- Text written to `stdout`. -/
  stdout : String
  /-- Return value of `main`, or the fault. -/
  status : Except Fault Int
deriving DecidableEq, Repr

/-- The program: the compaction pass, then the bitmap, glyph and descriptor
sections. -/
def main (F : SourceFont) (wantedCharacters : List Nat) (heapBelow : Option GFXglyph) :
    Outcome :=
  match compact F wantedCharacters with
  | .error e => { stdout := "", status := .error e }
  | .ok st =>
    let out := emitBitmaps st ++ glyphHeader
    match emitGlyphLoop heapBelow st.newGlyphs
        (st.lastUseableChar - st.firstUseableChar).toNat st.firstUseableChar out with
    | (out1, some e) => { stdout := out1, status := .error e }
    | (out1, none) =>
      let i := st.firstUseableChar + (st.lastUseableChar - st.firstUseableChar).toNat
      match readNewGlyph heapBelow st.newGlyphs i with
      | .error e => { stdout := out1, status := .error e }
      | .ok g => { stdout := out1 ++ glyphLastRow g i ++ emitDescriptor st, status := .ok 0 }

/-! ### Vocabulary of the statements -/

/-- The test `neededElementIndex >= 0` of the loop for glyph index `i`: the
selector accepts the character `i + 32`. -/
def wantedGlyph (wantedCharacters : List Nat) (i : Nat) : Prop :=
  0 ≤ isWantedChar wantedCharacters ((i + 32) % 256)

instance (W : List Nat) (i : Nat) : Decidable (wantedGlyph W i) := by
  unfold wantedGlyph; infer_instance

/-- The wanted set: the characters of the C string `wantedCharacters`, which
are those in front of its terminator. -/
def wantedSet (wantedCharacters : List Nat) : List Nat :=
  wantedCharacters.takeWhile (fun c => c ≠ 0)

/-- The glyph found at `Glyphs[k]`; where that read has no value the
placeholder `droppedGlyph` stands in (a completed pass never meets it). -/
def glyphAt (F : SourceFont) (k : Nat) : GFXglyph :=
  ((F.Glyphs ++ F.sentinel.toList)[k]?).getD droppedGlyph

/-- Length of the source byte range of glyph `i`:
`Glyphs[i+1].bitmapOffset - Glyphs[i].bitmapOffset`, or `0` when the range is
empty (the inner loop does not run). -/
def srcLen (F : SourceFont) (i : Nat) : Nat :=
  (glyphAt F (i + 1)).bitmapOffset - (glyphAt F i).bitmapOffset

/-- The source bytes of glyph `i`: those at the positions
`Glyphs[i].bitmapOffset .. Glyphs[i+1].bitmapOffset - 1` of the bitmap array. -/
def srcBytes (F : SourceFont) (i : Nat) : List Nat :=
  (F.Bitmaps.drop (glyphAt F i).bitmapOffset).take (srcLen F i)

/-- The reads of iteration `i` all have a value: `Glyphs[i+1]` is readable and
the byte range, if not empty, ends inside the bitmap array. -/
def stepSafe (F : SourceFont) (i : Nat) : Prop :=
  i + 1 < (F.Glyphs ++ F.sentinel.toList).length ∧
    (srcLen F i = 0 ∨ (glyphAt F (i + 1)).bitmapOffset ≤ F.Bitmaps.length)

instance (F : SourceFont) (i : Nat) : Decidable (stepSafe F i) := by
  unfold stepSafe; infer_instance

/-- The state that iteration `i` produces from `st` when its reads have values
and its stores have cells. -/
def stepSpec (F : SourceFont) (W : List Nat) (st : PassState) (i : Nat) : PassState :=
  if wantedGlyph W i then
    { newBitmaps := st.newBitmaps ++ srcBytes F i,
      newGlyphs := st.newGlyphs ++
        [{ glyphAt F i with bitmapOffset := st.newBitmapOffset % 65536 }],
      newBitmapOffset := st.newBitmapOffset + srcLen F i,
      firstUseableChar := if st.firstUseableChar = -1 then (i : Int) else st.firstUseableChar,
      lastUseableChar := (i : Int) }
  else
    { st with newGlyphs := st.newGlyphs ++ [droppedGlyph] }

/-- The state after the first `k` iterations, when their reads have values and
their stores have cells. -/
def specRun (F : SourceFont) (W : List Nat) (k : Nat) : PassState :=
  (List.range k).foldl (stepSpec F W) initState

/-- The write cursor `newBitmapOffset` at the moment glyph `i` is reached. -/
def cursorAt (F : SourceFont) (W : List Nat) (i : Nat) : Nat :=
  (specRun F W i).newBitmapOffset

/-- The stores of iteration `i` all lie inside the allocation of `newBitmaps`:
nothing is copied, or the cursor after the copy is at most
`oldBitmapArraySize`. -/
def writeSafe (F : SourceFont) (W : List Nat) (i : Nat) : Prop :=
  srcLen F i = 0 ∨ cursorAt F W i + srcLen F i ≤ F.Bitmaps.length

instance (F : SourceFont) (W : List Nat) (i : Nat) : Decidable (writeSafe F W i) := by
  unfold writeSafe; infer_instance

/-- The entry that the pass writes to `newGlyphs[i]`. -/
def newGlyphEntry (F : SourceFont) (W : List Nat) (i : Nat) : GFXglyph :=
  if wantedGlyph W i then
    { glyphAt F i with bitmapOffset := cursorAt F W i % 65536 }
  else droppedGlyph

/-! ### Concrete fonts used as witnesses and counterexamples -/

/-- A glyph record with bitmap offset `o` and fixed metrics. -/
def sampleGlyph (o : Nat) : GFXglyph :=
  { bitmapOffset := o, width := 3, height := 4, xAdvance := 5, xOffset := -1, yOffset := -7 }

/-- Four glyphs (codes 32..35) over six bitmap bytes, with a readable cell
behind the table that holds the total bitmap length. -/
def smallFont : SourceFont :=
  { Bitmaps := [10, 11, 12, 13, 14, 15],
    Glyphs := [sampleGlyph 0, sampleGlyph 2, sampleGlyph 3, sampleGlyph 5],
    sentinel := some (sampleGlyph 6) }

/-- A bitmap array of 70000 bytes, all `0xFF`. -/
def bigBitmaps : List Nat := List.replicate 70000 255

/-- Expected result of the pass on `smallFont` for the wanted string `" \""`
(codes 32 and 34). -/
def smallResult : PassState :=
  { newBitmaps := [0, 10, 11, 13, 14],
    newGlyphs := [sampleGlyph 1, droppedGlyph, sampleGlyph 3, droppedGlyph],
    newBitmapOffset := 5, firstUseableChar := 0, lastUseableChar := 2 }

/-- Three glyphs over 70000 bitmap bytes with monotone offsets: glyph 0 owns the
bytes `0 .. 65534`, glyph 1 starts at offset 65535 and is empty. -/
def chainFont : SourceFont :=
  { Bitmaps := bigBitmaps,
    Glyphs := [sampleGlyph 0, sampleGlyph 65535, sampleGlyph 65535],
    sentinel := none }

/-- Three glyphs (codes 32..34) over three bitmap bytes; the last glyph is blank
(its offset is the bitmap length) and nothing is readable behind the table. -/
def fullFont : SourceFont :=
  { Bitmaps := [10, 11, 12],
    Glyphs := [sampleGlyph 0, sampleGlyph 2, sampleGlyph 3],
    sentinel := none }

/-- The state that the loop on `fullFont` would reach for the wanted string
`" !"` (codes 32, 33) if every store had a cell: `specRun` at the table size. -/
def fullResult : PassState :=
  { newBitmaps := [0, 10, 11, 12],
    newGlyphs := [sampleGlyph 1, sampleGlyph 3, droppedGlyph],
    newBitmapOffset := 4, firstUseableChar := 0, lastUseableChar := 1 }

/-- The state the pass reaches when no glyph of an `n`-entry table is wanted. -/
def nothingWanted (n : Nat) : PassState :=
  { initState with newGlyphs := List.replicate n droppedGlyph }

/-- The text written up to the first glyph row when no glyph is wanted: the
bitmap declaration with the reserved byte and the padding byte, and the header
of the glyph declaration. -/
def emptyRunText : String :=
  "const uint8_t FreeSansBold24pt7bBitmaps[] PROGMEM = \x7b\n0x00, 0x00 \x7d;\n\n" ++
    "const GFXglyph FreeSansBold24pt7bGlyphs[] PROGMEM = \x7b\n"

/-- The rows that the loop of the glyph section prints for the records `gs`,
the first of them at glyph index `i`. -/
def glyphRows : Nat → List GFXglyph → String
  | _, [] => ""
  | i, g :: rest => glyphRow g (i : Int) ++ glyphRows (i + 1) rest

/-- The body of a glyph array declaration that lists the records `gs` and then
`last`, in this order, the first record at glyph index `i`. -/
def glyphSection (i : Nat) (gs : List GFXglyph) (last : GFXglyph) : String :=
  glyphRows i gs ++ glyphLastRow last ((i + gs.length : Nat) : Int)

/-- An array element `0xHH`: the characters `0x` and the two hexadecimal digits
of the byte `b`. -/
def hexByte (b : Nat) : String := String.mk ['0', 'x', hexDigit (b / 16), hexDigit (b % 16)]

/-- The body of a byte array declaration that lists the elements `elems` and
then `last`, the first of `elems` being element number `k` (counted from 0):
each of `elems` is followed by a comma and a blank, and by a line break when its
number `k` satisfies `0 < k` and `k % 12 = 0`; `last` is followed by the closing
brace. -/
def byteArrayBody : Nat → List String → String → String
  | _, [], last => last ++ " \x7d;\n\n"
  | k, e :: rest, last =>
    e ++ ", " ++ (if 0 < k ∧ k % 12 = 0 then "\n" else "") ++ byteArrayBody (k + 1) rest last

/-- Header line of the byte array declaration. -/
def bitmapHeader : String := "const uint8_t FreeSansBold24pt7bBitmaps[] PROGMEM = \x7b\n"

/-- Three glyphs (codes 32..34) over 25 bitmap bytes `1 .. 25`: glyph 0 owns the
bytes `0 .. 23`, glyph 1 the last byte; nothing is readable behind the table. -/
def rowFont : SourceFont :=
  { Bitmaps := [1, 2, 3, 4, 5, 6, 7, 8, 9, 10, 11, 12, 13, 14, 15, 16, 17, 18, 19, 20, 21,
      22, 23, 24, 25],
    Glyphs := [sampleGlyph 0, sampleGlyph 24, sampleGlyph 25],
    sentinel := none }

/-- Result of the pass on `rowFont` for the wanted string `" "` (code 32). -/
def rowResult : PassState :=
  { newBitmaps := [0, 1, 2, 3, 4, 5, 6, 7, 8, 9, 10, 11, 12, 13, 14, 15, 16, 17, 18, 19, 20,
      21, 22, 23, 24],
    newGlyphs := [sampleGlyph 1, droppedGlyph, droppedGlyph],
    newBitmapOffset := 25, firstUseableChar := 0, lastUseableChar := 0 }

/-- Two glyphs (codes 32, 33) over three bitmap bytes: glyph 0 owns the bytes 0
and 1, glyph 1 the byte 2; nothing is readable behind the table. -/
def lastFont : SourceFont :=
  { Bitmaps := [10, 11, 12],
    Glyphs := [sampleGlyph 0, sampleGlyph 2],
    sentinel := none }

/-- The scalar fields of the record `GFXfont` (data stored for the font as a
whole); its two pointers are the arrays of `SourceFont`. -/
structure GFXfont where
  /-- Field `uint8_t first`. -/
  first : Nat
  /-- Field `uint8_t last`. -/
  last : Nat
  /-- Field `uint8_t yAdvance`. -/
  yAdvance : Nat
deriving DecidableEq, Repr

/-- The descriptor of the font the program is written for, `FreeSansBold24pt7b`:
codes `0x20 .. 0x7E`, yAdvance 56. -/
def referenceDescriptor : GFXfont := { first := 32, last := 126, yAdvance := 56 }

/-- A descriptor of some other font, with yAdvance 20. -/
def otherDescriptor : GFXfont := { first := 32, last := 126, yAdvance := 20 }

/-- The descriptor declaration as the claim about yAdvance words it: the text of
`emitDescriptor` with the decimal `yAdvance` of a given descriptor in the place
of the last field. -/
def descriptorCopying (yAdvance : Nat) (st : PassState) : String :=
  "const GFXfont FreeSansBold24pt7b PROGMEM = \x7b\n" ++
    "(uint8_t  *)FreeSansBold24pt7bBitmaps,\n" ++
    "(GFXglyph *)FreeSansBold24pt7bGlyphs,\n" ++
    "0x" ++ fmtX02 (st.firstUseableChar + 32) ++ ", 0x" ++
    fmtX02 (st.lastUseableChar + 32) ++ ", " ++ toString yAdvance ++ " \x7d;\n"

/-- The descriptor declaration printed when no glyph is wanted. -/
def emptyRunDescriptor : String :=
  "const GFXfont FreeSansBold24pt7b PROGMEM = \x7b\n" ++
    "(uint8_t  *)FreeSansBold24pt7bBitmaps,\n" ++
    "(GFXglyph *)FreeSansBold24pt7bGlyphs,\n" ++
    "0x1F, 0x1F, 56 \x7d;\n"

/-! ### The loops -/

theorem copyLoop_eq_ok (B : List Nat) :
    ∀ (todo j : Nat) (st : PassState), j + todo ≤ B.length →
      st.newBitmapOffset + todo ≤ B.length →
      copyLoop B todo j st = .ok
        { st with newBitmaps := st.newBitmaps ++ (B.drop j).take todo,
                  newBitmapOffset := st.newBitmapOffset + todo } := by
  intro todo
  induction todo with
  | zero => intro j st _ _; simp [copyLoop]
  | succ t ih =>
    intro j st h hw
    have hj : j < B.length := by omega
    have hc : st.newBitmapOffset < B.length := by omega
    have hd : B.drop j = B[j] :: B.drop (j + 1) := List.drop_eq_getElem_cons hj
    rw [copyLoop, List.getElem?_eq_getElem hj]
    simp only []
    rw [if_pos hc, ih (j + 1) _ (by omega) (by simp only []; omega)]
    have ht : (B.drop j).take (t + 1) = B[j] :: (B.drop (j + 1)).take t := by
      rw [hd, List.take_succ_cons]
    simp [Nat.add_assoc, Nat.add_comm 1 t, ht]

theorem copyLoop_eq_ok' (B : List Nat) (todo j : Nat) (st : PassState)
    (h : todo = 0 ∨ (j + todo ≤ B.length ∧ st.newBitmapOffset + todo ≤ B.length)) :
    copyLoop B todo j st = .ok
      { st with newBitmaps := st.newBitmaps ++ (B.drop j).take todo,
                newBitmapOffset := st.newBitmapOffset + todo } := by
  rcases h with h0 | ⟨h1, h2⟩
  · subst h0
    simp [copyLoop]
  · exact copyLoop_eq_ok B todo j st h1 h2

theorem copyLoop_ok_bound (B : List Nat) :
    ∀ (todo j : Nat) (st st1 : PassState), copyLoop B todo j st = .ok st1 →
      todo = 0 ∨ (j + todo ≤ B.length ∧ st.newBitmapOffset + todo ≤ B.length) := by
  intro todo
  induction todo with
  | zero => intro j st st1 _; exact Or.inl rfl
  | succ t ih =>
    intro j st st1 h
    right
    rw [copyLoop] at h
    cases hb : B[j]? with
    | none => rw [hb] at h; simp at h
    | some b =>
      rw [hb] at h
      simp only [] at h
      have hj : j < B.length := by
        rcases List.getElem?_eq_some_iff.mp hb with ⟨hj, _⟩
        exact hj
      by_cases hc : st.newBitmapOffset < B.length
      · rw [if_pos hc] at h
        rcases ih _ _ _ h with h0 | ⟨h1, h2⟩
        · omega
        · simp only [] at h2
          omega
      · rw [if_neg hc] at h
        simp at h

/-- The copy loop stops at the first store outside the allocation: when all the
source bytes can be read and the cursor would pass `oldBitmapArraySize`, the
result is the fault of the store at index `oldBitmapArraySize`. -/
theorem copyLoop_write_fault (B : List Nat) :
    ∀ (todo j : Nat) (st : PassState), j + todo ≤ B.length →
      st.newBitmapOffset ≤ B.length → B.length < st.newBitmapOffset + todo →
      copyLoop B todo j st = .error (.bitmapWrite B.length) := by
  intro todo
  induction todo with
  | zero => intro j st _ h1 h2; omega
  | succ t ih =>
    intro j st h h1 h2
    have hj : j < B.length := by omega
    rw [copyLoop, List.getElem?_eq_getElem hj]
    simp only []
    by_cases hc : st.newBitmapOffset < B.length
    · rw [if_pos hc]
      exact ih (j + 1) _ (by omega) (by simp only []; omega) (by simp only []; omega)
    · rw [if_neg hc]
      have : st.newBitmapOffset = B.length := by omega
      rw [this]

theorem readGlyph_of_lt (F : SourceFont) (k : Nat)
    (h : k < (F.Glyphs ++ F.sentinel.toList).length) :
    readGlyph F k = .ok (glyphAt F k) := by
  unfold readGlyph glyphAt
  rw [List.getElem?_eq_getElem h]
  rfl

theorem readGlyph_ok (F : SourceFont) (k : Nat) (g : GFXglyph) (h : readGlyph F k = .ok g) :
    k < (F.Glyphs ++ F.sentinel.toList).length ∧ g = glyphAt F k := by
  unfold readGlyph at h
  cases hm : (F.Glyphs ++ F.sentinel.toList)[k]? with
  | none => rw [hm] at h; simp at h
  | some g1 =>
    rw [hm] at h
    simp only [Except.ok.injEq] at h
    rcases List.getElem?_eq_some_iff.mp hm with ⟨hk, _⟩
    refine ⟨hk, ?_⟩
    unfold glyphAt
    rw [hm, ← h]
    rfl

theorem glyphStep_wanted_ok (F : SourceFont) (W : List Nat) (st : PassState) (i : Nat)
    (hw : wantedGlyph W i) (hs : stepSafe F i)
    (hwr : srcLen F i = 0 ∨ st.newBitmapOffset + srcLen F i ≤ F.Bitmaps.length) :
    glyphStep F W st i = .ok (stepSpec F W st i) := by
  have hw1 : 0 ≤ isWantedChar W ((i + 32) % 256) := hw
  obtain ⟨h1, h2⟩ := hs
  have hb : srcLen F i = 0 ∨ ((glyphAt F i).bitmapOffset + srcLen F i ≤ F.Bitmaps.length ∧
      st.newBitmapOffset + srcLen F i ≤ F.Bitmaps.length) := by
    have hl : srcLen F i = (glyphAt F (i + 1)).bitmapOffset - (glyphAt F i).bitmapOffset := rfl
    omega
  unfold glyphStep
  rw [if_pos hw1, readGlyph_of_lt F i (by omega), readGlyph_of_lt F (i + 1) h1]
  simp only []
  have hc := copyLoop_eq_ok' F.Bitmaps (srcLen F i) (glyphAt F i).bitmapOffset
    { st with newGlyphs := st.newGlyphs ++
        [{ glyphAt F i with bitmapOffset := st.newBitmapOffset % 65536 }] } hb
  unfold srcLen at hc
  rw [hc]
  simp only [stepSpec, if_pos hw, srcBytes, srcLen]

theorem glyphStep_dropped (F : SourceFont) (W : List Nat) (st : PassState) (i : Nat)
    (hw : ¬ wantedGlyph W i) :
    glyphStep F W st i = .ok (stepSpec F W st i) := by
  have hw1 : ¬ 0 ≤ isWantedChar W ((i + 32) % 256) := hw
  unfold glyphStep
  rw [if_neg hw1]
  simp only [stepSpec, if_neg hw]

theorem glyphStep_ok_safe (F : SourceFont) (W : List Nat) (st st1 : PassState) (i : Nat)
    (hw : wantedGlyph W i) (h : glyphStep F W st i = .ok st1) :
    stepSafe F i ∧
      (srcLen F i = 0 ∨ st.newBitmapOffset + srcLen F i ≤ F.Bitmaps.length) := by
  have hw1 : 0 ≤ isWantedChar W ((i + 32) % 256) := hw
  unfold glyphStep at h
  rw [if_pos hw1] at h
  cases hg : readGlyph F i with
  | error e => rw [hg] at h; simp at h
  | ok g =>
    rw [hg] at h
    simp only [] at h
    cases hn : readGlyph F (i + 1) with
    | error e => rw [hn] at h; simp at h
    | ok nx =>
      rw [hn] at h
      simp only [] at h
      obtain ⟨_, hg1⟩ := readGlyph_ok F i g hg
      obtain ⟨hlt, hn1⟩ := readGlyph_ok F (i + 1) nx hn
      cases hc : copyLoop F.Bitmaps (nx.bitmapOffset - g.bitmapOffset) g.bitmapOffset
          { st with newGlyphs := st.newGlyphs ++
              [{ g with bitmapOffset := st.newBitmapOffset % 65536 }] } with
      | error e => rw [hc] at h; simp at h
      | ok st2 =>
        have hb := copyLoop_ok_bound _ _ _ _ _ hc
        simp only [] at hb
        have hl : srcLen F i = (glyphAt F (i + 1)).bitmapOffset - (glyphAt F i).bitmapOffset :=
          rfl
        rw [← hg1, ← hn1] at hl
        refine ⟨⟨hlt, ?_⟩, ?_⟩
        · rw [← hn1]
          omega
        · omega

/-- One iteration returns a state exactly when the reads and the stores of a
wanted glyph are inside their arrays, and the state is then `stepSpec`. -/
theorem glyphStep_eq_ok_iff (F : SourceFont) (W : List Nat) (st st1 : PassState) (i : Nat) :
    glyphStep F W st i = .ok st1 ↔
      (wantedGlyph W i → stepSafe F i ∧
        (srcLen F i = 0 ∨ st.newBitmapOffset + srcLen F i ≤ F.Bitmaps.length)) ∧
      st1 = stepSpec F W st i := by
  constructor
  · intro h
    by_cases hw : wantedGlyph W i
    · have hs := glyphStep_ok_safe F W st st1 i hw h
      rw [glyphStep_wanted_ok F W st i hw hs.1 hs.2] at h
      exact ⟨fun _ => hs, (Except.ok.inj h).symm⟩
    · rw [glyphStep_dropped F W st i hw] at h
      exact ⟨fun hw1 => absurd hw1 hw, (Except.ok.inj h).symm⟩
  · rintro ⟨hs, rfl⟩
    by_cases hw : wantedGlyph W i
    · exact glyphStep_wanted_ok F W st i hw (hs hw).1 (hs hw).2
    · exact glyphStep_dropped F W st i hw

theorem passLoop_append (F : SourceFont) (W : List Nat) :
    ∀ (l1 l2 : List Nat) (st : PassState),
      passLoop F W (l1 ++ l2) st =
        match passLoop F W l1 st with
        | .error e => .error e
        | .ok st1 => passLoop F W l2 st1 := by
  intro l1
  induction l1 with
  | nil => intro l2 st; rfl
  | cons i rest ih =>
    intro l2 st
    rw [List.cons_append, passLoop, passLoop]
    cases glyphStep F W st i with
    | error e => rfl
    | ok st1 => exact ih l2 st1

theorem specRun_succ (F : SourceFont) (W : List Nat) (k : Nat) :
    specRun F W (k + 1) = stepSpec F W (specRun F W k) k := by
  simp [specRun, List.range_succ, List.foldl_append]

/-- The first `k` iterations return a state exactly when every wanted glyph
below `k` is safe to read and to store, and the state is then `specRun`. -/
theorem prefixRun_eq_ok_iff (F : SourceFont) (W : List Nat) (k : Nat) (st : PassState) :
    passLoop F W (List.range k) initState = .ok st ↔
      (∀ i, i < k → wantedGlyph W i → stepSafe F i ∧ writeSafe F W i) ∧
        st = specRun F W k := by
  induction k generalizing st with
  | zero =>
    simp only [List.range_zero, passLoop, Except.ok.injEq, Nat.not_lt_zero, false_imp_iff,
      implies_true, true_and]
    exact eq_comm
  | succ k ih =>
    rw [List.range_succ, passLoop_append]
    cases hp : passLoop F W (List.range k) initState with
    | error e =>
      simp only []
      constructor
      · intro h; simp at h
      · rintro ⟨hs, _⟩
        have := (ih (specRun F W k)).mpr ⟨fun i hi hw => hs i (by omega) hw, rfl⟩
        rw [hp] at this
        simp at this
    | ok st0 =>
      simp only []
      obtain ⟨hs0, rfl⟩ := (ih st0).mp hp
      rw [passLoop]
      cases hg : glyphStep F W (specRun F W k) k with
      | error e =>
        simp only []
        constructor
        · intro h; simp at h
        · rintro ⟨hs, _⟩
          have := (glyphStep_eq_ok_iff F W (specRun F W k) _ k).mpr
            ⟨fun hw => hs k (by omega) hw, rfl⟩
          rw [hg] at this
          simp at this
      | ok st2 =>
        simp only [passLoop, Except.ok.injEq]
        obtain ⟨hs2, rfl⟩ := (glyphStep_eq_ok_iff F W (specRun F W k) st2 k).mp hg
        rw [specRun_succ]
        constructor
        · intro h
          refine ⟨fun i hi hw => ?_, h.symm⟩
          by_cases hik : i = k
          · subst hik; exact hs2 hw
          · exact hs0 i (by omega) hw
        · rintro ⟨_, h⟩
          exact h.symm

/-- The pass returns a state exactly when every wanted glyph is safe to read and
to store, and the state is then `specRun` at the table size. -/
theorem compact_eq_ok_iff (F : SourceFont) (W : List Nat) (r : PassState) :
    compact F W = .ok r ↔
      (∀ i, i < F.Glyphs.length → wantedGlyph W i → stepSafe F i ∧ writeSafe F W i) ∧
        r = specRun F W F.Glyphs.length :=
  prefixRun_eq_ok_iff F W F.Glyphs.length r

/-! ### The state after `k` iterations -/

theorem specRun_zero (F : SourceFont) (W : List Nat) : specRun F W 0 = initState := rfl

theorem specRun_newGlyphs (F : SourceFont) (W : List Nat) (k : Nat) :
    (specRun F W k).newGlyphs = (List.range k).map (newGlyphEntry F W) := by
  induction k with
  | zero => rfl
  | succ k ih =>
    rw [specRun_succ, List.range_succ, List.map_append, ← ih]
    unfold stepSpec newGlyphEntry cursorAt
    by_cases hw : wantedGlyph W k <;> simp [hw]

theorem cursorAt_zero (F : SourceFont) (W : List Nat) : cursorAt F W 0 = 1 := rfl

theorem cursorAt_succ (F : SourceFont) (W : List Nat) (k : Nat) :
    cursorAt F W (k + 1) = cursorAt F W k + (if wantedGlyph W k then srcLen F k else 0) := by
  unfold cursorAt
  rw [specRun_succ]
  unfold stepSpec
  by_cases hw : wantedGlyph W k <;> simp [hw]

theorem cursorAt_eq_sum (F : SourceFont) (W : List Nat) (k : Nat) :
    cursorAt F W k =
      1 + (((List.range k).filter (fun i => decide (wantedGlyph W i))).map (srcLen F)).sum := by
  induction k with
  | zero => rfl
  | succ k ih =>
    rw [cursorAt_succ, ih, List.range_succ, List.filter_append, List.map_append, List.sum_append]
    by_cases hw : wantedGlyph W k <;> simp [hw, List.filter_cons, Nat.add_assoc]

theorem cursorAt_mono (F : SourceFont) (W : List Nat) (k m : Nat) (h : k ≤ m) :
    cursorAt F W k ≤ cursorAt F W m := by
  induction m with
  | zero =>
    have : k = 0 := by omega
    subst this
    exact Nat.le_refl _
  | succ m ih =>
    by_cases hk : k = m + 1
    · subst hk; exact Nat.le_refl _
    · have := ih (by omega)
      rw [cursorAt_succ]
      omega

theorem specRun_newBitmaps_succ (F : SourceFont) (W : List Nat) (k : Nat) :
    (specRun F W (k + 1)).newBitmaps =
      (specRun F W k).newBitmaps ++ (if wantedGlyph W k then srcBytes F k else []) := by
  rw [specRun_succ]
  unfold stepSpec
  by_cases hw : wantedGlyph W k <;> simp [hw]

theorem srcBytes_length (F : SourceFont) (i : Nat) (hs : stepSafe F i) :
    (srcBytes F i).length = srcLen F i := by
  obtain ⟨_, h2⟩ := hs
  have hl : srcLen F i = (glyphAt F (i + 1)).bitmapOffset - (glyphAt F i).bitmapOffset := rfl
  unfold srcBytes
  rw [List.length_take, List.length_drop]
  omega

/-- While every wanted glyph is safe, `newBitmaps` holds exactly the cells below
the cursor. -/
theorem specRun_newBitmaps_length (F : SourceFont) (W : List Nat) (k : Nat)
    (hs : ∀ i, i < k → wantedGlyph W i → stepSafe F i) :
    (specRun F W k).newBitmaps.length = cursorAt F W k := by
  induction k with
  | zero => rfl
  | succ k ih =>
    rw [specRun_newBitmaps_succ, cursorAt_succ, List.length_append,
      ih (fun i hi hw => hs i (by omega) hw)]
    by_cases hw : wantedGlyph W k
    · simp only [hw, if_true]
      rw [srcBytes_length F k (hs k (by omega) hw)]
    · simp [hw]

theorem specRun_newBitmaps_append (F : SourceFont) (W : List Nat) (k m : Nat) (h : k ≤ m) :
    ∃ tail, (specRun F W m).newBitmaps = (specRun F W k).newBitmaps ++ tail := by
  induction m with
  | zero =>
    have : k = 0 := by omega
    subst this
    exact ⟨[], by simp⟩
  | succ m ih =>
    by_cases hk : k = m + 1
    · subst hk; exact ⟨[], by simp⟩
    · obtain ⟨tail, ht⟩ := ih (by omega)
      refine ⟨tail ++ (if wantedGlyph W m then srcBytes F m else []), ?_⟩
      rw [specRun_newBitmaps_succ, ht, List.append_assoc]

theorem srcBytes_getElem? (F : SourceFont) (i t : Nat) (ht : t < srcLen F i) :
    (srcBytes F i)[t]? = F.Bitmaps[(glyphAt F i).bitmapOffset + t]? := by
  unfold srcBytes
  rw [List.getElem?_take_of_lt ht, List.getElem?_drop]

/-! ### The selector -/

theorem take_strlen (W : List Nat) : W.take (strlen W) = wantedSet W := by
  unfold strlen wantedSet
  induction W with
  | nil => rfl
  | cons c t ih =>
    by_cases hc : c = 0
    · simp [List.takeWhile_cons, hc]
    · simp only [List.takeWhile_cons, hc, ne_eq, not_false_eq_true, decide_True, if_true,
        List.length_cons, List.take_succ_cons]
      rw [ih]

theorem zero_not_mem_wantedSet (W : List Nat) : 0 ∉ wantedSet W := by
  intro h
  have := List.mem_takeWhile_imp h
  simp at this

/-- The selector accepts `c` exactly when `c` is one of the wanted characters. -/
theorem isWantedChar_nonneg_iff (W : List Nat) (c : Nat) :
    0 ≤ isWantedChar W c ↔ c ∈ wantedSet W := by
  rw [← take_strlen]
  unfold isWantedChar
  cases hf : (List.range (strlen W)).find? (fun i => decide (W[i]? = some c)) with
  | none =>
    simp only []
    constructor
    · intro h; omega
    · intro h
      exfalso
      obtain ⟨i, hi⟩ := List.mem_iff_getElem?.mp h
      rw [List.getElem?_take] at hi
      by_cases hlt : i < strlen W
      · rw [if_pos hlt] at hi
        have := List.find?_eq_none.mp hf i (List.mem_range.mpr hlt)
        simp [hi] at this
      · rw [if_neg hlt] at hi
        simp at hi
  | some i =>
    simp only []
    constructor
    · intro _
      have h1 := List.find?_some hf
      have h2 := List.mem_range.mp (List.mem_of_find?_eq_some hf)
      simp only [decide_eq_true_eq] at h1
      apply List.mem_iff_getElem?.mpr
      exact ⟨i, by rw [List.getElem?_take, if_pos h2]; exact h1⟩
    · intro _; omega

theorem wantedGlyph_iff (W : List Nat) (i : Nat) :
    wantedGlyph W i ↔ (i + 32) % 256 ∈ wantedSet W :=
  isWantedChar_nonneg_iff W _

theorem wantedGlyph_iff_of_lt (W : List Nat) (i : Nat) (h : i + 32 < 256) :
    wantedGlyph W i ↔ i + 32 ∈ wantedSet W := by
  rw [wantedGlyph_iff, Nat.mod_eq_of_lt h]

/-! ### The extents -/

theorem specRun_first (F : SourceFont) (W : List Nat) (k : Nat) :
    ((specRun F W k).firstUseableChar = -1 ∧ ∀ i, i < k → ¬ wantedGlyph W i) ∨
      ∃ f, f < k ∧ (specRun F W k).firstUseableChar = (f : Int) ∧ wantedGlyph W f ∧
        ∀ j, j < f → ¬ wantedGlyph W j := by
  induction k with
  | zero => left; exact ⟨rfl, fun i hi => absurd hi (Nat.not_lt_zero i)⟩
  | succ k ih =>
    rw [specRun_succ]
    unfold stepSpec
    by_cases hw : wantedGlyph W k
    · simp only [hw, if_true]
      rcases ih with ⟨h1, h2⟩ | ⟨f, hf, h1, h2, h3⟩
      · right
        exact ⟨k, by omega, by simp [h1], hw, h2⟩
      · right
        refine ⟨f, by omega, ?_, h2, h3⟩
        rw [h1]
        have : ¬ ((f : Int) = -1) := by omega
        simp [this]
    · simp only [hw, if_false]
      rcases ih with ⟨h1, h2⟩ | ⟨f, hf, h1, h2, h3⟩
      · left
        refine ⟨h1, fun i hi => ?_⟩
        by_cases hik : i = k
        · subst hik; exact hw
        · exact h2 i (by omega)
      · right
        exact ⟨f, by omega, h1, h2, h3⟩

theorem specRun_last (F : SourceFont) (W : List Nat) (k : Nat) :
    ((specRun F W k).lastUseableChar = -1 ∧ ∀ i, i < k → ¬ wantedGlyph W i) ∨
      ∃ l, l < k ∧ (specRun F W k).lastUseableChar = (l : Int) ∧ wantedGlyph W l ∧
        ∀ j, l < j → j < k → ¬ wantedGlyph W j := by
  induction k with
  | zero => left; exact ⟨rfl, fun i hi => absurd hi (Nat.not_lt_zero i)⟩
  | succ k ih =>
    rw [specRun_succ]
    unfold stepSpec
    by_cases hw : wantedGlyph W k
    · simp only [hw, if_true]
      right
      exact ⟨k, by omega, rfl, hw, fun j h1 h2 => by omega⟩
    · simp only [hw, if_false]
      rcases ih with ⟨h1, h2⟩ | ⟨l, hl, h1, h2, h3⟩
      · left
        refine ⟨h1, fun i hi => ?_⟩
        by_cases hik : i = k
        · subst hik; exact hw
        · exact h2 i (by omega)
      · right
        refine ⟨l, by omega, h1, h2, fun j h4 h5 => ?_⟩
        by_cases hjk : j = k
        · subst hjk; exact hw
        · exact h3 j h4 (by omega)

theorem wanted_extents (F : SourceFont) (W : List Nat) (k : Nat)
    (hex : ∃ i, i < k ∧ wantedGlyph W i) :
    ∃ f l : Nat, f ≤ l ∧ l < k ∧ (specRun F W k).firstUseableChar = (f : Int) ∧
      (specRun F W k).lastUseableChar = (l : Int) ∧ wantedGlyph W f ∧ wantedGlyph W l := by
  obtain ⟨i, hi, hw⟩ := hex
  rcases specRun_first F W k with ⟨_, hnone⟩ | ⟨f, hf, hfirst, hfw, hflow⟩
  · exact absurd hw (hnone i hi)
  rcases specRun_last F W k with ⟨_, hnone⟩ | ⟨l, hl, hlast, hlw, _⟩
  · exact absurd hw (hnone i hi)
  refine ⟨f, l, ?_, hl, hfirst, hlast, hfw, hlw⟩
  by_contra hlt
  exact hflow l (by omega) hlw

theorem compact_ok_safe (F : SourceFont) (W : List Nat) (r : PassState)
    (h : compact F W = .ok r) :
    ∀ i, i < F.Glyphs.length → wantedGlyph W i → stepSafe F i :=
  fun i hi hw => (((compact_eq_ok_iff F W r).mp h).1 i hi hw).1

theorem compact_ok_write (F : SourceFont) (W : List Nat) (r : PassState)
    (h : compact F W = .ok r) :
    ∀ i, i < F.Glyphs.length → wantedGlyph W i → writeSafe F W i :=
  fun i hi hw => (((compact_eq_ok_iff F W r).mp h).1 i hi hw).2

theorem compact_ok_eq (F : SourceFont) (W : List Nat) (r : PassState)
    (h : compact F W = .ok r) : r = specRun F W F.Glyphs.length :=
  ((compact_eq_ok_iff F W r).mp h).2

theorem prefix_run_ok (F : SourceFont) (W : List Nat) (r : PassState)
    (h : compact F W = .ok r) (k : Nat) (hk : k ≤ F.Glyphs.length) :
    passLoop F W (List.range k) initState = .ok (specRun F W k) := by
  rw [prefixRun_eq_ok_iff]
  exact ⟨fun i hi hw => ((compact_eq_ok_iff F W r).mp h).1 i (by omega) hw, rfl⟩

theorem compact_newGlyphs_getElem? (F : SourceFont) (W : List Nat) (r : PassState)
    (h : compact F W = .ok r) (i : Nat) (hi : i < F.Glyphs.length) :
    r.newGlyphs[i]? = some (newGlyphEntry F W i) := by
  rw [compact_ok_eq F W r h, specRun_newGlyphs, List.getElem?_map,
    List.getElem?_range hi]
  rfl

theorem compact_bytes_at_cursor (F : SourceFont) (W : List Nat) (r : PassState)
    (h : compact F W = .ok r) (i : Nat) (hi : i < F.Glyphs.length) (hw : wantedGlyph W i)
    (t : Nat) (ht : t < srcLen F i) :
    r.newBitmaps[cursorAt F W i + t]? = F.Bitmaps[(glyphAt F i).bitmapOffset + t]? ∧
      (glyphAt F i).bitmapOffset + t < F.Bitmaps.length := by
  have hsafe := compact_ok_safe F W r h
  have hlen := specRun_newBitmaps_length F W i (fun j hj hwj => hsafe j (by omega) hwj)
  obtain ⟨tail, htail⟩ := specRun_newBitmaps_append F W (i + 1) F.Glyphs.length (by omega)
  have hs := hsafe i hi hw
  have hsl := srcBytes_length F i hs
  have hb : (glyphAt F i).bitmapOffset + t < F.Bitmaps.length := by
    obtain ⟨_, h2⟩ := hs
    have hl : srcLen F i = (glyphAt F (i + 1)).bitmapOffset - (glyphAt F i).bitmapOffset := rfl
    omega
  refine ⟨?_, hb⟩
  rw [compact_ok_eq F W r h, htail, specRun_newBitmaps_succ, if_pos hw,
    List.getElem?_append_left (by rw [List.length_append, hlen, hsl]; omega),
    List.getElem?_append_right (by omega), hlen, Nat.add_sub_cancel_left,
    srcBytes_getElem? F i t ht]

/-- With non-decreasing source offsets the write cursor is never more than one
ahead of the source offset of the glyph it has reached. -/
theorem cursorAt_le_offset (F : SourceFont) (W : List Nat)
    (hmono : ∀ i, i + 1 < (F.Glyphs ++ F.sentinel.toList).length →
      (glyphAt F i).bitmapOffset ≤ (glyphAt F (i + 1)).bitmapOffset)
    (k : Nat) (hk : k < (F.Glyphs ++ F.sentinel.toList).length) :
    cursorAt F W k ≤ 1 + (glyphAt F k).bitmapOffset := by
  induction k with
  | zero =>
    rw [cursorAt_zero]
    omega
  | succ k ih =>
    have h1 := ih (by omega)
    have h2 := hmono k hk
    have hl : srcLen F k = (glyphAt F (k + 1)).bitmapOffset - (glyphAt F k).bitmapOffset := rfl
    rw [cursorAt_succ]
    by_cases hw : wantedGlyph W k
    · rw [if_pos hw]
      omega
    · rw [if_neg hw]
      omega

/-- C1: on a source font whose glyph offsets are 16-bit values in non-decreasing
order, when the pass completes, for every glyph index `i` whose character code
is wanted the compacted buffer holds, starting at that glyph's new
`bitmapOffset`, exactly the source bytes of the positions
`Glyphs[i].bitmapOffset` up to (not including) `Glyphs[i+1].bitmapOffset`, in
the same order. -/
theorem bitmap_bytes_preserved (F : SourceFont) (W : List Nat) (r : PassState)
    (h : compact F W = .ok r)
    (hmono : ∀ i, i + 1 < (F.Glyphs ++ F.sentinel.toList).length →
      (glyphAt F i).bitmapOffset ≤ (glyphAt F (i + 1)).bitmapOffset)
    (h16 : ∀ i, i < (F.Glyphs ++ F.sentinel.toList).length →
      (glyphAt F i).bitmapOffset < 65536)
    (i : Nat) (hi : i < F.Glyphs.length) (hw : wantedGlyph W i) :
    ∃ g next g1,
      readGlyph F i = .ok g ∧ readGlyph F (i + 1) = .ok next ∧
      r.newGlyphs[i]? = some g1 ∧
      ∀ t, g.bitmapOffset + t < next.bitmapOffset →
        ∃ b, F.Bitmaps[g.bitmapOffset + t]? = some b ∧
          r.newBitmaps[g1.bitmapOffset + t]? = some b := by
  have hs := compact_ok_safe F W r h i hi hw
  have hlt : i < (F.Glyphs ++ F.sentinel.toList).length := by have := hs.1; omega
  refine ⟨glyphAt F i, glyphAt F (i + 1), newGlyphEntry F W i,
    readGlyph_of_lt F i hlt, readGlyph_of_lt F (i + 1) hs.1,
    compact_newGlyphs_getElem? F W r h i hi, ?_⟩
  intro t ht
  have hl : srcLen F i = (glyphAt F (i + 1)).bitmapOffset - (glyphAt F i).bitmapOffset := rfl
  obtain ⟨h1, h2⟩ := compact_bytes_at_cursor F W r h i hi hw t (by omega)
  have hcur := cursorAt_le_offset F W hmono i hlt
  have hnext := h16 (i + 1) hs.1
  have hoff : (newGlyphEntry F W i).bitmapOffset = cursorAt F W i := by
    simp only [newGlyphEntry, hw, if_true]
    exact Nat.mod_eq_of_lt (by omega)
  refine ⟨F.Bitmaps[(glyphAt F i).bitmapOffset + t], List.getElem?_eq_getElem h2, ?_⟩
  rw [hoff, h1, List.getElem?_eq_getElem h2]

/-- C1, witness of `bitmap_bytes_preserved`: `smallFont`, wanted codes 32 and 34,
glyph 2, whose bytes 13 and 14 stand at the new offset 3. -/
theorem bitmap_bytes_preserved_witness :
    compact smallFont [32, 34] = .ok smallResult ∧ wantedGlyph [32, 34] 2 ∧
    smallResult.newBitmaps[3]? = some 13 ∧ smallResult.newBitmaps[4]? = some 14 ∧
    ∃ g next g1,
      readGlyph smallFont 2 = .ok g ∧ readGlyph smallFont (2 + 1) = .ok next ∧
      smallResult.newGlyphs[2]? = some g1 ∧
      ∀ t, g.bitmapOffset + t < next.bitmapOffset →
        ∃ b, smallFont.Bitmaps[g.bitmapOffset + t]? = some b ∧
          smallResult.newBitmaps[g1.bitmapOffset + t]? = some b :=
  ⟨by decide, by decide, by decide, by decide,
    bitmap_bytes_preserved smallFont [32, 34] smallResult (by decide)
      (by
        intro i hi
        have hi5 : i + 1 < 5 := hi
        have hi4 : i < 4 := by omega
        interval_cases i <;> decide)
      (by
        intro i hi
        have hi5 : i < 5 := hi
        interval_cases i <;> decide)
      2 (by decide) (by decide)⟩

/-! ### C2: glyph metrics -/

/-- C2: after the pass, a glyph whose character code `i + 32` is in the wanted set
has the width, height, xAdvance, xOffset and yOffset of the source glyph at the
same index; a glyph whose code is not in the wanted set has width 0, height 0
and bitmapOffset 0.  (Character codes are bytes: `i + 32 < 256`.) -/
theorem glyph_metrics_preserved (F : SourceFont) (W : List Nat) (r : PassState)
    (h : compact F W = .ok r) (i : Nat) (hi : i < F.Glyphs.length) (hc : i + 32 < 256) :
    ∃ g g1, F.Glyphs[i]? = some g ∧ r.newGlyphs[i]? = some g1 ∧
      (i + 32 ∈ wantedSet W →
        g1.width = g.width ∧ g1.height = g.height ∧ g1.xAdvance = g.xAdvance ∧
          g1.xOffset = g.xOffset ∧ g1.yOffset = g.yOffset) ∧
      (i + 32 ∉ wantedSet W → g1.width = 0 ∧ g1.height = 0 ∧ g1.bitmapOffset = 0) := by
  have hg : glyphAt F i = F.Glyphs[i] := by
    unfold glyphAt
    rw [List.getElem?_append_left hi, List.getElem?_eq_getElem hi]
    rfl
  refine ⟨F.Glyphs[i], newGlyphEntry F W i, List.getElem?_eq_getElem hi,
    compact_newGlyphs_getElem? F W r h i hi, ?_, ?_⟩
  · intro hm
    have hw := (wantedGlyph_iff_of_lt W i hc).mpr hm
    simp [newGlyphEntry, hw, hg]
  · intro hm
    have hw : ¬ wantedGlyph W i := fun hw => hm ((wantedGlyph_iff_of_lt W i hc).mp hw)
    simp [newGlyphEntry, hw, droppedGlyph]

/-- C2, witness of `glyph_metrics_preserved`: `smallFont`, wanted codes 32 and 34,
glyph 1 (dropped). -/
theorem glyph_metrics_preserved_witness :
    compact smallFont [32, 34] = .ok smallResult ∧
    ∃ g g1, smallFont.Glyphs[1]? = some g ∧ smallResult.newGlyphs[1]? = some g1 ∧
      (1 + 32 ∈ wantedSet [32, 34] →
        g1.width = g.width ∧ g1.height = g.height ∧ g1.xAdvance = g.xAdvance ∧
          g1.xOffset = g.xOffset ∧ g1.yOffset = g.yOffset) ∧
      (1 + 32 ∉ wantedSet [32, 34] → g1.width = 0 ∧ g1.height = 0 ∧ g1.bitmapOffset = 0) :=
  ⟨by decide,
    glyph_metrics_preserved smallFont [32, 34] smallResult (by decide) 1 (by decide) (by decide)⟩

/-! ### C3: extents -/

/-- C3: when the wanted set contains a character code `c` inside the font's range
`[32, 32 + n)`, the pass leaves in `firstUseableChar + 32` the lowest and in
`lastUseableChar + 32` the highest wanted code of that range.  (Character codes
are bytes: `n + 32 ≤ 256`.) -/
theorem extents_correct (F : SourceFont) (W : List Nat) (r : PassState)
    (h : compact F W = .ok r) (hn : F.Glyphs.length + 32 ≤ 256)
    (c : Nat) (hc : c ∈ wantedSet W) (h1 : 32 ≤ c) (h2 : c < 32 + F.Glyphs.length) :
    ∃ lo hi : Nat,
      r.firstUseableChar + 32 = (lo : Int) ∧ r.lastUseableChar + 32 = (hi : Int) ∧
      lo ∈ wantedSet W ∧ 32 ≤ lo ∧ lo < 32 + F.Glyphs.length ∧
      hi ∈ wantedSet W ∧ 32 ≤ hi ∧ hi < 32 + F.Glyphs.length ∧
      ∀ d, d ∈ wantedSet W → 32 ≤ d → d < 32 + F.Glyphs.length → lo ≤ d ∧ d ≤ hi := by
  have hr := compact_ok_eq F W r h
  have hwc : wantedGlyph W (c - 32) := by
    rw [wantedGlyph_iff_of_lt W (c - 32) (by omega)]
    have : c - 32 + 32 = c := by omega
    rw [this]
    exact hc
  have hidx : ∀ d, d ∈ wantedSet W → 32 ≤ d → d < 32 + F.Glyphs.length →
      wantedGlyph W (d - 32) := by
    intro d hd hd1 hd2
    rw [wantedGlyph_iff_of_lt W (d - 32) (by omega)]
    have : d - 32 + 32 = d := by omega
    rw [this]
    exact hd
  rcases specRun_first F W F.Glyphs.length with ⟨_, hnone⟩ | ⟨f, hf, hfirst, hfw, hflow⟩
  · exact absurd hwc (hnone (c - 32) (by omega))
  rcases specRun_last F W F.Glyphs.length with ⟨_, hnone⟩ | ⟨l, hl, hlast, hlw, hlhigh⟩
  · exact absurd hwc (hnone (c - 32) (by omega))
  refine ⟨f + 32, l + 32, ?_, ?_, ?_, by omega, by omega, ?_, by omega, by omega, ?_⟩
  · rw [hr, hfirst]; push_cast; rfl
  · rw [hr, hlast]; push_cast; rfl
  · exact (wantedGlyph_iff_of_lt W f (by omega)).mp hfw
  · exact (wantedGlyph_iff_of_lt W l (by omega)).mp hlw
  · intro d hd hd1 hd2
    have hwd := hidx d hd hd1 hd2
    constructor
    · by_contra hlt
      exact hflow (d - 32) (by omega) hwd
    · by_contra hgt
      exact hlhigh (d - 32) (by omega) (by omega) hwd

/-- C3, witness of `extents_correct`: `smallFont`, wanted codes 32 and 34. -/
theorem extents_correct_witness :
    compact smallFont [32, 34] = .ok smallResult ∧ 34 ∈ wantedSet [32, 34] ∧
    ∃ lo hi : Nat,
      smallResult.firstUseableChar + 32 = (lo : Int) ∧
      smallResult.lastUseableChar + 32 = (hi : Int) ∧
      lo ∈ wantedSet [32, 34] ∧ 32 ≤ lo ∧ lo < 32 + smallFont.Glyphs.length ∧
      hi ∈ wantedSet [32, 34] ∧ 32 ≤ hi ∧ hi < 32 + smallFont.Glyphs.length ∧
      ∀ d, d ∈ wantedSet [32, 34] → 32 ≤ d → d < 32 + smallFont.Glyphs.length →
        lo ≤ d ∧ d ≤ hi :=
  ⟨by decide, by decide,
    extents_correct smallFont [32, 34] smallResult (by decide) (by decide) 34 (by decide)
      (by decide) (by decide)⟩

/-! ### C4: length of the compacted bitmap -/

/-- C4: when the pass completes, the final write cursor is 1 plus the sum, over
the wanted glyph indices, of the lengths of their source byte ranges
`[Glyphs[i].bitmapOffset, Glyphs[i+1].bitmapOffset)`; it is the number of cells
of the compacted buffer, and both offsets of every wanted glyph were read. -/
theorem bitmap_length_invariant (F : SourceFont) (W : List Nat) (r : PassState)
    (h : compact F W = .ok r) :
    r.newBitmapOffset =
        1 + (((List.range F.Glyphs.length).filter (fun i => decide (wantedGlyph W i))).map
          (srcLen F)).sum ∧
      r.newBitmaps.length = r.newBitmapOffset ∧
      ∀ i, i < F.Glyphs.length → wantedGlyph W i →
        ∃ g next, readGlyph F i = .ok g ∧ readGlyph F (i + 1) = .ok next ∧
          srcLen F i = next.bitmapOffset - g.bitmapOffset := by
  have hr := compact_ok_eq F W r h
  have hsafe := compact_ok_safe F W r h
  refine ⟨?_, ?_, ?_⟩
  · rw [hr, ← cursorAt_eq_sum]
    rfl
  · rw [hr]
    exact specRun_newBitmaps_length F W F.Glyphs.length hsafe
  · intro i hi hw
    have hs := hsafe i hi hw
    exact ⟨glyphAt F i, glyphAt F (i + 1), readGlyph_of_lt F i (by have := hs.1; omega),
      readGlyph_of_lt F (i + 1) hs.1, rfl⟩

/-- C4, witness of `bitmap_length_invariant`: `smallFont`, wanted codes 32 and 34
(ranges of 2 and 2 bytes, cursor 5). -/
theorem bitmap_length_invariant_witness :
    compact smallFont [32, 34] = .ok smallResult ∧ smallResult.newBitmapOffset = 5 ∧
    (smallResult.newBitmapOffset =
        1 + (((List.range smallFont.Glyphs.length).filter
          (fun i => decide (wantedGlyph [32, 34] i))).map (srcLen smallFont)).sum ∧
      smallResult.newBitmaps.length = smallResult.newBitmapOffset ∧
      ∀ i, i < smallFont.Glyphs.length → wantedGlyph [32, 34] i →
        ∃ g next, readGlyph smallFont i = .ok g ∧ readGlyph smallFont (i + 1) = .ok next ∧
          srcLen smallFont i = next.bitmapOffset - g.bitmapOffset) :=
  ⟨by decide, rfl, bitmap_length_invariant smallFont [32, 34] smallResult (by decide)⟩

/-! ### C5: offset chaining -/

theorem cursorAt_eq_of_none_wanted (F : SourceFont) (W : List Nat) (k m : Nat) (h : k ≤ m)
    (hn : ∀ x, k ≤ x → x < m → ¬ wantedGlyph W x) : cursorAt F W m = cursorAt F W k := by
  induction m with
  | zero =>
    have : k = 0 := by omega
    subst this
    rfl
  | succ m ih =>
    by_cases hk : k = m + 1
    · subst hk; rfl
    · rw [cursorAt_succ, if_neg (hn m (by omega) (by omega)), Nat.add_zero]
      exact ih (by omega) (fun x h1 h2 => hn x h1 (by omega))

/-- C5 (amended): when the pass completes, the lowest wanted glyph has the stored
bitmapOffset 1, and for two wanted glyphs `i < j` with no wanted glyph between
them the stored bitmapOffset of `j` is the stored bitmapOffset of `i` plus the
number of bytes copied for `i`, reduced modulo 65536; the write cursor itself
advances by exactly that number of bytes. -/
theorem offset_chaining_mod (F : SourceFont) (W : List Nat) (r : PassState)
    (h : compact F W = .ok r) :
    (∀ i, i < F.Glyphs.length → wantedGlyph W i → (∀ j, j < i → ¬ wantedGlyph W j) →
      ∃ g, r.newGlyphs[i]? = some g ∧ g.bitmapOffset = 1) ∧
    (∀ i j, i < j → j < F.Glyphs.length → wantedGlyph W i → wantedGlyph W j →
      (∀ m, i < m → m < j → ¬ wantedGlyph W m) →
      ∃ gi gj, r.newGlyphs[i]? = some gi ∧ r.newGlyphs[j]? = some gj ∧
        cursorAt F W j = cursorAt F W i + srcLen F i ∧
        gj.bitmapOffset = (gi.bitmapOffset + srcLen F i) % 65536) := by
  constructor
  · intro i hi hw hlow
    refine ⟨newGlyphEntry F W i, compact_newGlyphs_getElem? F W r h i hi, ?_⟩
    have hc : cursorAt F W i = 1 := by
      rw [cursorAt_eq_of_none_wanted F W 0 i (Nat.zero_le _) (fun x _ hx => hlow x hx)]
      rfl
    simp [newGlyphEntry, hw, hc]
  · intro i j hij hj hwi hwj hbetween
    have hc : cursorAt F W j = cursorAt F W i + srcLen F i := by
      rw [cursorAt_eq_of_none_wanted F W (i + 1) j (by omega)
        (fun x h1 h2 => hbetween x (by omega) h2), cursorAt_succ, if_pos hwi]
    refine ⟨newGlyphEntry F W i, newGlyphEntry F W j,
      compact_newGlyphs_getElem? F W r h i (by omega),
      compact_newGlyphs_getElem? F W r h j hj, hc, ?_⟩
    simp only [newGlyphEntry, hwi, hwj, if_true, hc]
    rw [Nat.mod_add_mod]

/-- C5, witness of `offset_chaining_mod`: `smallFont`, wanted codes 32 and 34. -/
theorem offset_chaining_mod_witness :
    compact smallFont [32, 34] = .ok smallResult ∧
    ((∀ i, i < smallFont.Glyphs.length → wantedGlyph [32, 34] i →
        (∀ j, j < i → ¬ wantedGlyph [32, 34] j) →
        ∃ g, smallResult.newGlyphs[i]? = some g ∧ g.bitmapOffset = 1) ∧
      (∀ i j, i < j → j < smallFont.Glyphs.length → wantedGlyph [32, 34] i →
        wantedGlyph [32, 34] j → (∀ m, i < m → m < j → ¬ wantedGlyph [32, 34] m) →
        ∃ gi gj, smallResult.newGlyphs[i]? = some gi ∧ smallResult.newGlyphs[j]? = some gj ∧
          cursorAt smallFont [32, 34] j = cursorAt smallFont [32, 34] i + srcLen smallFont i ∧
          gj.bitmapOffset = (gi.bitmapOffset + srcLen smallFont i) % 65536)) :=
  ⟨by decide, offset_chaining_mod smallFont [32, 34] smallResult (by decide)⟩

theorem bigBitmaps_length : bigBitmaps.length = 70000 := List.length_replicate _ _

theorem chainFont_srcLen : srcLen chainFont 0 = 65535 := by
  simp [srcLen, glyphAt, chainFont, sampleGlyph]

theorem chainFont_cursor : cursorAt chainFont [32, 33] 1 = 65536 := by
  have h0 : wantedGlyph [32, 33] 0 := by decide
  rw [cursorAt_succ, cursorAt_zero, if_pos h0, chainFont_srcLen]

theorem chainFont_safe (i : Nat) (hi : i < chainFont.Glyphs.length)
    (hw : wantedGlyph [32, 33] i) : stepSafe chainFont i ∧ writeSafe chainFont [32, 33] i := by
  have hi3 : i < 3 := hi
  interval_cases i
  · refine ⟨?_, Or.inr ?_⟩
    · simp [stepSafe, chainFont, glyphAt, srcLen, sampleGlyph, bigBitmaps_length]
    · rw [cursorAt_zero, chainFont_srcLen]
      show 1 + 65535 ≤ bigBitmaps.length
      rw [bigBitmaps_length]
      decide
  · refine ⟨?_, Or.inl ?_⟩
    · simp [stepSafe, chainFont, glyphAt, srcLen, sampleGlyph, bigBitmaps_length]
    · simp [srcLen, glyphAt, chainFont, sampleGlyph]
  · exact absurd hw (by decide)

theorem chainFont_run :
    compact chainFont [32, 33] = .ok (specRun chainFont [32, 33] chainFont.Glyphs.length) :=
  (compact_eq_ok_iff _ _ _).mpr ⟨chainFont_safe, rfl⟩

theorem chainFont_entry0 : (newGlyphEntry chainFont [32, 33] 0).bitmapOffset = 1 := by
  have h0 : wantedGlyph [32, 33] 0 := by decide
  simp [newGlyphEntry, h0, cursorAt_zero]

theorem chainFont_entry1 : (newGlyphEntry chainFont [32, 33] 1).bitmapOffset = 0 := by
  have h1 : wantedGlyph [32, 33] 1 := by decide
  simp [newGlyphEntry, h1, chainFont_cursor]

theorem chainFont_final_cursor : cursorAt chainFont [32, 33] 3 = 65536 := by
  have h1 : wantedGlyph [32, 33] 1 := by decide
  have h2 : ¬ wantedGlyph [32, 33] 2 := by decide
  rw [cursorAt_succ, cursorAt_succ, chainFont_cursor, if_pos h1, if_neg h2]
  simp [srcLen, glyphAt, chainFont, sampleGlyph]

/-- C5, counterexample to the claim as stated: on `chainFont` (monotone offsets)
with the wanted codes 32 and 33 the pass completes without leaving the source
arrays or the allocation of `newBitmaps`; glyph 0 gets the stored bitmapOffset 1
and 65535 bytes are copied for it, yet the next wanted glyph gets the stored
bitmapOffset 0, not `1 + 65535`. -/
theorem offset_chaining_counterexample :
    ∃ r g0 g1, compact chainFont [32, 33] = .ok r ∧ writesInBounds chainFont r ∧
      wantedGlyph [32, 33] 0 ∧ wantedGlyph [32, 33] 1 ∧
      r.newGlyphs[0]? = some g0 ∧ r.newGlyphs[1]? = some g1 ∧
      cursorAt chainFont [32, 33] 1 = cursorAt chainFont [32, 33] 0 + 65535 ∧
      g0.bitmapOffset = 1 ∧ g1.bitmapOffset = 0 ∧
      g1.bitmapOffset ≠ g0.bitmapOffset + 65535 := by
  have hr := chainFont_run
  have hb : writesInBounds chainFont (specRun chainFont [32, 33] chainFont.Glyphs.length) := by
    show cursorAt chainFont [32, 33] 3 ≤ bigBitmaps.length
    rw [chainFont_final_cursor, bigBitmaps_length]
    decide
  refine ⟨_, newGlyphEntry chainFont [32, 33] 0, newGlyphEntry chainFont [32, 33] 1, hr, hb,
    by decide, by decide, compact_newGlyphs_getElem? _ _ _ hr 0 (by decide),
    compact_newGlyphs_getElem? _ _ _ hr 1 (by decide), ?_, chainFont_entry0, chainFont_entry1, ?_⟩
  · rw [chainFont_cursor, cursorAt_zero]
  · rw [chainFont_entry0, chainFont_entry1]
    decide

/-! ### C6: a second pass over the printed font -/

theorem specRun_newGlyphs_length (F : SourceFont) (W : List Nat) (k : Nat) :
    (specRun F W k).newGlyphs.length = k := by
  rw [specRun_newGlyphs, List.length_map, List.length_range]

theorem glyphAt_of_lt (F : SourceFont) (i : Nat) (hi : i < F.Glyphs.length) :
    glyphAt F i = F.Glyphs[i] := by
  unfold glyphAt
  rw [List.getElem?_append_left hi, List.getElem?_eq_getElem hi]
  rfl

theorem glyphAt_sentinel (F : SourceFont) (s : GFXglyph) (hs : F.sentinel = some s) :
    glyphAt F F.Glyphs.length = s := by
  unfold glyphAt
  rw [List.getElem?_append_right (Nat.le_refl _), hs]
  simp

theorem offset_le_of_mono (F : SourceFont)
    (hmono : ∀ i, i < F.Glyphs.length →
      (glyphAt F i).bitmapOffset ≤ (glyphAt F (i + 1)).bitmapOffset)
    (k m : Nat) (hkm : k ≤ m) (hm : m ≤ F.Glyphs.length) :
    (glyphAt F k).bitmapOffset ≤ (glyphAt F m).bitmapOffset := by
  induction m with
  | zero =>
    have : k = 0 := by omega
    subst this
    exact Nat.le_refl _
  | succ m ih =>
    by_cases hk : k = m + 1
    · subst hk; exact Nat.le_refl _
    · exact Nat.le_trans (ih (by omega) (by omega)) (hmono m (by omega))

theorem specRun_all_wanted (F : SourceFont) (W : List Nat)
    (hw : ∀ i, i < F.Glyphs.length → wantedGlyph W i)
    (h0 : (glyphAt F 0).bitmapOffset = 0)
    (hmono : ∀ i, i < F.Glyphs.length →
      (glyphAt F i).bitmapOffset ≤ (glyphAt F (i + 1)).bitmapOffset)
    (k : Nat) (hk : k ≤ F.Glyphs.length) :
    (specRun F W k).newBitmaps = 0 :: F.Bitmaps.take (glyphAt F k).bitmapOffset ∧
      cursorAt F W k = 1 + (glyphAt F k).bitmapOffset := by
  induction k with
  | zero =>
    rw [specRun_zero, cursorAt_zero, h0]
    exact ⟨rfl, rfl⟩
  | succ k ih =>
    obtain ⟨ih1, ih2⟩ := ih (by omega)
    have hm := hmono k (by omega)
    have hl : srcLen F k = (glyphAt F (k + 1)).bitmapOffset - (glyphAt F k).bitmapOffset := rfl
    have hsum : (glyphAt F (k + 1)).bitmapOffset = (glyphAt F k).bitmapOffset + srcLen F k := by
      omega
    constructor
    · rw [specRun_newBitmaps_succ, if_pos (hw k (by omega)), ih1, hsum, List.take_add]
      rfl
    · rw [cursorAt_succ, if_pos (hw k (by omega)), ih2]
      omega

theorem glyphStep_write_fault (F : SourceFont) (W : List Nat) (st : PassState) (i : Nat)
    (hw : wantedGlyph W i) (hs : stepSafe F i)
    (hlen : (glyphAt F (i + 1)).bitmapOffset = F.Bitmaps.length)
    (hlt : (glyphAt F i).bitmapOffset < F.Bitmaps.length)
    (hcur : st.newBitmapOffset = 1 + (glyphAt F i).bitmapOffset) :
    glyphStep F W st i = .error (.bitmapWrite F.Bitmaps.length) := by
  have hw1 : 0 ≤ isWantedChar W ((i + 32) % 256) := hw
  obtain ⟨h1, _⟩ := hs
  unfold glyphStep
  rw [if_pos hw1, readGlyph_of_lt F i (by omega), readGlyph_of_lt F (i + 1) h1]
  simp only []
  rw [copyLoop_write_fault F.Bitmaps _ _ _ (by omega) (by simp only []; omega)
    (by simp only []; omega)]

/-- Under the hypotheses of scenario D the first `m` iterations either reach
`specRun` with the source offset of glyph `m` still below the bitmap length, or
have already ended in the store at index `oldBitmapArraySize`. -/
theorem all_wanted_prefix (F : SourceFont) (W : List Nat) (s : GFXglyph)
    (hw : ∀ i, i < F.Glyphs.length → wantedGlyph W i)
    (hs : F.sentinel = some s) (hlen : s.bitmapOffset = F.Bitmaps.length)
    (h0 : (glyphAt F 0).bitmapOffset = 0)
    (hmono : ∀ i, i < F.Glyphs.length →
      (glyphAt F i).bitmapOffset ≤ (glyphAt F (i + 1)).bitmapOffset)
    (hne : F.Bitmaps ≠ []) (m : Nat) (hm : m ≤ F.Glyphs.length) :
    (passLoop F W (List.range m) initState = .ok (specRun F W m) ∧
        (glyphAt F m).bitmapOffset < F.Bitmaps.length) ∨
      passLoop F W (List.range m) initState = .error (.bitmapWrite F.Bitmaps.length) := by
  have hpos : 0 < F.Bitmaps.length := List.length_pos.mpr hne
  have hend : (glyphAt F F.Glyphs.length).bitmapOffset = F.Bitmaps.length := by
    rw [glyphAt_sentinel F s hs, hlen]
  induction m with
  | zero =>
    left
    exact ⟨rfl, by rw [h0]; exact hpos⟩
  | succ m ih =>
    rw [List.range_succ, passLoop_append]
    rcases ih (by omega) with ⟨hok, hlt⟩ | herr
    · rw [hok]
      simp only [passLoop]
      have hsafe : stepSafe F m := by
        refine ⟨?_, Or.inr ?_⟩
        · rw [List.length_append, hs]
          simp only [Option.toList, List.length_cons, List.length_nil]
          omega
        · rw [← hend]
          exact offset_le_of_mono F hmono (m + 1) F.Glyphs.length (by omega) (Nat.le_refl _)
      have hcur : (specRun F W m).newBitmapOffset = 1 + (glyphAt F m).bitmapOffset :=
        (specRun_all_wanted F W hw h0 hmono m (by omega)).2
      have hle : (glyphAt F (m + 1)).bitmapOffset ≤ F.Bitmaps.length := by
        rw [← hend]
        exact offset_le_of_mono F hmono (m + 1) F.Glyphs.length (by omega) (Nat.le_refl _)
      have hmm := hmono m (by omega)
      have hl : srcLen F m = (glyphAt F (m + 1)).bitmapOffset - (glyphAt F m).bitmapOffset :=
        rfl
      by_cases hfull : (glyphAt F (m + 1)).bitmapOffset = F.Bitmaps.length
      · right
        rw [glyphStep_write_fault F W _ m (hw m (by omega)) hsafe hfull hlt hcur]
      · left
        rw [glyphStep_wanted_ok F W _ m (hw m (by omega)) hsafe (Or.inr (by omega))]
        simp only []
        rw [← specRun_succ]
        exact ⟨rfl, by omega⟩
    · right
      rw [herr]

/-- C7, the code under the hypotheses of the claim: when the wanted set contains
every character code of the font's range and the source font is well formed
(first offset 0, offsets non-decreasing up to the entry behind the last glyph,
that entry equal to the total bitmap length) and has at least one bitmap byte,
the pass does not produce the compacted buffer of length `1 + original length`:
it ends in the store `newBitmaps[oldBitmapArraySize]`, one cell behind the
allocation. -/
theorem all_wanted_overflows (F : SourceFont) (W : List Nat) (s : GFXglyph)
    (hn : F.Glyphs.length + 32 ≤ 256)
    (hall : ∀ i, i < F.Glyphs.length → i + 32 ∈ wantedSet W)
    (hs : F.sentinel = some s) (hlen : s.bitmapOffset = F.Bitmaps.length)
    (h0 : (glyphAt F 0).bitmapOffset = 0)
    (hmono : ∀ i, i < F.Glyphs.length →
      (glyphAt F i).bitmapOffset ≤ (glyphAt F (i + 1)).bitmapOffset)
    (hne : F.Bitmaps ≠ []) :
    compact F W = .error (.bitmapWrite (oldBitmapArraySize F)) := by
  have hw : ∀ i, i < F.Glyphs.length → wantedGlyph W i := fun i hi =>
    (wantedGlyph_iff_of_lt W i (by omega)).mpr (hall i hi)
  have hend : (glyphAt F F.Glyphs.length).bitmapOffset = F.Bitmaps.length := by
    rw [glyphAt_sentinel F s hs, hlen]
  rcases all_wanted_prefix F W s hw hs hlen h0 hmono hne F.Glyphs.length (Nat.le_refl _) with
    ⟨_, hlt⟩ | herr
  · omega
  · exact herr

/-- C7, witness of `all_wanted_overflows`: `smallFont` (six bitmap bytes) with the
wanted string of the codes 32..35; the pass ends in the store at index 6. -/
theorem all_wanted_overflows_witness :
    oldBitmapArraySize smallFont = 6 ∧
    compact smallFont [32, 33, 34, 35] = .error (.bitmapWrite 6) ∧
    compact smallFont [32, 33, 34, 35] = .error (.bitmapWrite (oldBitmapArraySize smallFont)) :=
  ⟨rfl, by decide,
    all_wanted_overflows smallFont [32, 33, 34, 35] (sampleGlyph 6) (by decide) (by decide)
      rfl rfl rfl (by decide) (by decide)⟩

/-! ### C8: the allocation of `newBitmaps` -/

/-- C8, the code at the failing input: on `fullFont` (three bitmap bytes, so
`newBitmaps` has three cells) with the wanted codes 32 and 33 the pass copies
the three source bytes behind the reserved one.  After glyph 0 the cursor is 3;
the byte 12 of glyph 1 is stored at index 3, outside the allocation, and the
cursor would end at 4. -/
theorem write_past_allocation :
    oldBitmapArraySize fullFont = 3 ∧
      compact fullFont [32, 33] = .error (.bitmapWrite 3) ∧
      passLoop fullFont [32, 33] [0] initState =
        .ok { newBitmaps := [0, 10, 11], newGlyphs := [sampleGlyph 1], newBitmapOffset := 3,
              firstUseableChar := 0, lastUseableChar := 0 } ∧
      specRun fullFont [32, 33] 3 = fullResult ∧
      fullResult.newBitmapOffset = 4 ∧
      fullResult.newBitmaps[3]? = some 12 ∧
      ¬ writesInBounds fullFont fullResult := by
  decide

/-! ### C9: the empty wanted string -/

theorem specRun_none_wanted (F : SourceFont) (W : List Nat) (k : Nat)
    (hn : ∀ i, i < k → ¬ wantedGlyph W i) : specRun F W k = nothingWanted k := by
  induction k with
  | zero => rfl
  | succ k ih =>
    rw [specRun_succ, ih (fun i hi => hn i (by omega))]
    unfold stepSpec
    rw [if_neg (hn k (by omega))]
    simp [nothingWanted, List.replicate_succ']

theorem not_wantedGlyph_of_empty (W : List Nat) (hW : wantedSet W = []) (i : Nat) :
    ¬ wantedGlyph W i := by
  rw [wantedGlyph_iff, hW]
  exact List.not_mem_nil _

theorem compact_none_wanted (F : SourceFont) (W : List Nat)
    (hn : ∀ i, i < F.Glyphs.length → ¬ wantedGlyph W i) :
    compact F W = .ok (nothingWanted F.Glyphs.length) := by
  rw [compact_eq_ok_iff]
  exact ⟨fun i hi hw => absurd hw (hn i hi), (specRun_none_wanted F W _ hn).symm⟩

theorem emitBitmaps_nothingWanted (n : Nat) :
    emitBitmaps (nothingWanted n) ++ glyphHeader = emptyRunText := by
  show emitBitmaps (nothingWanted 0) ++ glyphHeader = emptyRunText
  decide

theorem main_none_wanted (F : SourceFont) (W : List Nat) (heapBelow : Option GFXglyph)
    (hn : ∀ i, i < F.Glyphs.length → ¬ wantedGlyph W i) :
    main F W heapBelow =
      match heapBelow with
      | none => { stdout := emptyRunText, status := .error (.newGlyphRead (-1)) }
      | some g =>
        { stdout := emptyRunText ++
            (glyphLastRow g (-1) ++ emitDescriptor (nothingWanted F.Glyphs.length)),
          status := .ok 0 } := by
  unfold main
  rw [compact_none_wanted F W hn]
  simp only []
  have ht : ((nothingWanted F.Glyphs.length).lastUseableChar -
      (nothingWanted F.Glyphs.length).firstUseableChar).toNat = 0 := rfl
  have hf : (nothingWanted F.Glyphs.length).firstUseableChar = -1 := rfl
  rw [ht, hf, emitBitmaps_nothingWanted]
  cases heapBelow with
  | none => rfl
  | some g =>
    simp only [emitGlyphLoop, readNewGlyph, Int.Nat.cast_ofNat_Int, add_zero, if_true,
      String.append_assoc]

/-- C9 (amended): when the wanted set is empty the program detects nothing: the
pass completes with every glyph dropped, the one reserved byte and both extents
at `-1`; the program then writes the bitmap declaration (`0x00, 0x00`) and the
header of the glyph declaration to `stdout`, and a run that reaches the end of
`main` returns 0. -/
theorem empty_wanted_set_still_emits (F : SourceFont) (W : List Nat)
    (heapBelow : Option GFXglyph) (hW : wantedSet W = []) :
    compact F W = .ok (nothingWanted F.Glyphs.length) ∧
    (nothingWanted F.Glyphs.length).newBitmaps = [0] ∧
    (nothingWanted F.Glyphs.length).firstUseableChar = -1 ∧
    (nothingWanted F.Glyphs.length).lastUseableChar = -1 ∧
    (∃ rest, (main F W heapBelow).stdout = emptyRunText ++ rest) ∧
    (∀ g, heapBelow = some g → (main F W heapBelow).status = .ok 0) := by
  have hn : ∀ i, i < F.Glyphs.length → ¬ wantedGlyph W i :=
    fun i _ => not_wantedGlyph_of_empty W hW i
  refine ⟨compact_none_wanted F W hn, rfl, rfl, rfl, ?_, ?_⟩
  · rw [main_none_wanted F W heapBelow hn]
    cases heapBelow with
    | none => exact ⟨"", by simp⟩
    | some g => exact ⟨_, rfl⟩
  · intro g hg
    rw [main_none_wanted F W heapBelow hn, hg]

/-- C9, witness of `empty_wanted_set_still_emits`: `smallFont` with the empty
wanted string and a readable cell below `newGlyphs`. -/
theorem empty_wanted_set_still_emits_witness :
    wantedSet [] = [] ∧
    (compact smallFont [] = .ok (nothingWanted smallFont.Glyphs.length) ∧
    (nothingWanted smallFont.Glyphs.length).newBitmaps = [0] ∧
    (nothingWanted smallFont.Glyphs.length).firstUseableChar = -1 ∧
    (nothingWanted smallFont.Glyphs.length).lastUseableChar = -1 ∧
    (∃ rest, (main smallFont [] (some droppedGlyph)).stdout = emptyRunText ++ rest) ∧
    (∀ g, some droppedGlyph = some g →
      (main smallFont [] (some droppedGlyph)).status = .ok 0)) :=
  ⟨rfl, empty_wanted_set_still_emits smallFont [] (some droppedGlyph) rfl⟩

set_option maxRecDepth 100000 in
/-- C9, counterexample to the claim as stated: on `smallFont` with the empty
wanted string the program writes the bitmap declaration and the glyph header to
`stdout`; with a readable cell below `newGlyphs` it also writes a glyph row and
the descriptor with the extents `0x1F, 0x1F`, and returns 0. -/
theorem empty_wanted_set_counterexample :
    (main smallFont [] none).stdout =
      "const uint8_t FreeSansBold24pt7bBitmaps[] PROGMEM = \x7b\n0x00, 0x00 \x7d;\n\n" ++
      "const GFXglyph FreeSansBold24pt7bGlyphs[] PROGMEM = \x7b\n" ∧
    (main smallFont [] (some droppedGlyph)).status = .ok 0 ∧
    (main smallFont [] (some droppedGlyph)).stdout =
      "const uint8_t FreeSansBold24pt7bBitmaps[] PROGMEM = \x7b\n0x00, 0x00 \x7d;\n\n" ++
      "const GFXglyph FreeSansBold24pt7bGlyphs[] PROGMEM = \x7b\n" ++
      "\x7b    0,    0,    0,   13,    0,    1 \x7d \x7d; // 0x1F \x27\x1f\x27\n\n" ++
      "const GFXfont FreeSansBold24pt7b PROGMEM = \x7b\n" ++
      "(uint8_t  *)FreeSansBold24pt7bBitmaps,\n" ++
      "(GFXglyph *)FreeSansBold24pt7bGlyphs,\n" ++
      "0x1F, 0x1F, 56 \x7d;\n" := by
  decide
/-! ### C10: characters outside the font's range -/

theorem glyphStep_congr (F : SourceFont) (W V : List Nat) (st : PassState) (i : Nat)
    (h : wantedGlyph W i ↔ wantedGlyph V i) : glyphStep F W st i = glyphStep F V st i := by
  by_cases hw : wantedGlyph W i
  · have hv := h.mp hw
    have hw1 : 0 ≤ isWantedChar W ((i + 32) % 256) := hw
    have hv1 : 0 ≤ isWantedChar V ((i + 32) % 256) := hv
    unfold glyphStep
    rw [if_pos hw1, if_pos hv1]
  · have hv : ¬ wantedGlyph V i := fun hv => hw (h.mpr hv)
    rw [glyphStep_dropped F W st i hw, glyphStep_dropped F V st i hv]
    unfold stepSpec
    rw [if_neg hw, if_neg hv]

theorem passLoop_congr (F : SourceFont) (W V : List Nat) :
    ∀ (l : List Nat) (st : PassState), (∀ i ∈ l, wantedGlyph W i ↔ wantedGlyph V i) →
      passLoop F W l st = passLoop F V l st := by
  intro l
  induction l with
  | nil => intro st _; rfl
  | cons i rest ih =>
    intro st h
    rw [passLoop, passLoop, glyphStep_congr F W V st i (h i (List.mem_cons_self _ _))]
    cases glyphStep F V st i with
    | error e => rfl
    | ok st1 => exact ih st1 (fun j hj => h j (List.mem_cons_of_mem _ hj))

theorem mem_wantedSet_insert (pre post : List Nat) (c x : Nat) (hc : c ≠ 0) (hx : x ≠ c) :
    x ∈ wantedSet (pre ++ c :: post) ↔ x ∈ wantedSet (pre ++ post) := by
  unfold wantedSet
  induction pre with
  | nil =>
    simp only [List.nil_append, List.takeWhile_cons, hc, ne_eq, not_false_eq_true,
      decide_True, if_true, List.mem_cons, hx, false_or]
  | cons a pre ih =>
    by_cases ha : a = 0
    · simp [List.takeWhile_cons, ha]
    · simp only [List.cons_append, List.takeWhile_cons, ha, ne_eq, not_false_eq_true,
        decide_True, if_true, List.mem_cons]
      rw [ih]

/-- C10: a character `c` outside the font's range `[32, 32 + n)` (for instance 31)
added anywhere to the wanted string leaves the result of the compaction pass
(glyph table, bitmap buffer, cursor, first and last usable character)
unchanged.  (Character codes are bytes, `n + 32 ≤ 256`, and a character of a C
string is not the terminator, `c ≠ 0`.) -/
theorem out_of_range_char_ignored (F : SourceFont) (pre post : List Nat) (c : Nat)
    (hn : F.Glyphs.length + 32 ≤ 256) (hc : c ≠ 0)
    (hout : c < 32 ∨ 32 + F.Glyphs.length ≤ c) :
    compact F (pre ++ c :: post) = compact F (pre ++ post) := by
  unfold compact oldGlyphArraySize
  apply passLoop_congr
  intro i hi
  have hlt : i < F.Glyphs.length := List.mem_range.mp hi
  rw [wantedGlyph_iff_of_lt _ i (by omega), wantedGlyph_iff_of_lt _ i (by omega)]
  exact mem_wantedSet_insert pre post c (i + 32) hc (by omega)

/-- C10, witness of `out_of_range_char_ignored`: `smallFont`, the character 31
added between the wanted codes 32 and 34. -/
theorem out_of_range_char_ignored_witness :
    compact smallFont ([32] ++ 31 :: [34]) = compact smallFont ([32] ++ [34]) ∧
      compact smallFont ([32] ++ 31 :: [34]) = .ok smallResult :=
  ⟨out_of_range_char_ignored smallFont [32] [34] 31 (by decide) (by decide) (by decide),
    by decide⟩

/-! ### C11: the selector -/

theorem isWantedChar_of_find (W : List Nat) (c i : Nat)
    (h : (List.range (strlen W)).find? (fun i => decide (W[i]? = some c)) = some i) :
    isWantedChar W c = (i : Int) := by
  unfold isWantedChar
  rw [h]

theorem isWantedChar_of_find_none (W : List Nat) (c : Nat)
    (h : (List.range (strlen W)).find? (fun i => decide (W[i]? = some c)) = none) :
    isWantedChar W c = -1 := by
  unfold isWantedChar
  rw [h]

theorem find_range_first (p : Nat → Bool) :
    ∀ (n i : Nat), (List.range n).find? p = some i → ∀ j, j < i → p j = false := by
  intro n
  induction n with
  | zero => intro i h; simp at h
  | succ n ih =>
    intro i h j hj
    rw [List.range_succ, List.find?_append] at h
    cases hn : (List.range n).find? p with
    | some k =>
      rw [hn] at h
      have hk : k = i := by simpa using h
      subst hk
      exact ih k hn j hj
    | none =>
      rw [hn] at h
      have h1 : [n].find? p = some i := by simpa using h
      have hi : i = n := by
        have := List.mem_of_find?_eq_some h1
        simpa using this
      subst hi
      have hall := List.find?_eq_none.mp hn j (List.mem_range.mpr hj)
      simpa using hall

/-- C11: `isWantedChar(c)` returns the index of the first position of the wanted
string (the positions in front of its terminator) whose character is `c`, and
`-1` when no position holds `c`; so the result is `>= 0` exactly when `c` occurs
in the string, and two wanted strings with the same characters, in whatever
order and however often repeated, accept the same characters. -/
theorem selector_contract (W : List Nat) (c : Nat) :
    (c ∈ wantedSet W →
      ∃ i : Nat, isWantedChar W c = (i : Int) ∧ i < strlen W ∧ W[i]? = some c ∧
        ∀ j, j < i → W[j]? ≠ some c) ∧
    (c ∉ wantedSet W → isWantedChar W c = -1) ∧
    (0 ≤ isWantedChar W c ↔ c ∈ wantedSet W) ∧
    (∀ V : List Nat, (∀ x, x ∈ wantedSet W ↔ x ∈ wantedSet V) →
      (0 ≤ isWantedChar W c ↔ 0 ≤ isWantedChar V c)) := by
  refine ⟨?_, ?_, isWantedChar_nonneg_iff W c, ?_⟩
  · intro hc
    cases hf : (List.range (strlen W)).find? (fun i => decide (W[i]? = some c)) with
    | none =>
      have h1 := isWantedChar_of_find_none W c hf
      have h2 := (isWantedChar_nonneg_iff W c).mpr hc
      omega
    | some i =>
      have h1 := List.find?_some hf
      have h2 := List.mem_range.mp (List.mem_of_find?_eq_some hf)
      simp only [decide_eq_true_eq] at h1
      refine ⟨i, isWantedChar_of_find W c i hf, h2, h1, ?_⟩
      intro j hj
      have := find_range_first _ _ i hf j hj
      simpa using this
  · intro hc
    cases hf : (List.range (strlen W)).find? (fun i => decide (W[i]? = some c)) with
    | none => exact isWantedChar_of_find_none W c hf
    | some i =>
      have h1 := isWantedChar_of_find W c i hf
      have h2 : 0 ≤ isWantedChar W c := by omega
      exact absurd ((isWantedChar_nonneg_iff W c).mp h2) hc
  · intro V hV
    rw [isWantedChar_nonneg_iff, isWantedChar_nonneg_iff]
    exact hV c

/-! ### C12: order of the output offsets -/

theorem entry_offset_of_wanted (F : SourceFont) (W : List Nat) (i : Nat)
    (hw : wantedGlyph W i) :
    (newGlyphEntry F W i).bitmapOffset = cursorAt F W i % 65536 := by
  simp [newGlyphEntry, hw]

theorem entry_of_dropped (F : SourceFont) (W : List Nat) (i : Nat)
    (hw : ¬ wantedGlyph W i) : newGlyphEntry F W i = droppedGlyph := by
  simp [newGlyphEntry, hw]

/-- C12 (amended): when the pass completes with a final cursor below 65536, the
stored bitmapOffset values of the wanted glyphs are non-decreasing in glyph-index
order: for wanted indices `i < j`, `newGlyphs[i].bitmapOffset` is at most
`newGlyphs[j].bitmapOffset`.  Every glyph that is not wanted has bitmapOffset 0. -/
theorem wanted_offsets_monotone (F : SourceFont) (W : List Nat) (r : PassState)
    (h : compact F W = .ok r) (hsize : r.newBitmapOffset < 65536) :
    (∀ i j, i < j → j < F.Glyphs.length → wantedGlyph W i → wantedGlyph W j →
      ∃ gi gj, r.newGlyphs[i]? = some gi ∧ r.newGlyphs[j]? = some gj ∧
        gi.bitmapOffset ≤ gj.bitmapOffset) ∧
    (∀ i, i < F.Glyphs.length → ¬ wantedGlyph W i →
      ∃ g, r.newGlyphs[i]? = some g ∧ g.bitmapOffset = 0) := by
  have hr := compact_ok_eq F W r h
  have hfinal : cursorAt F W F.Glyphs.length < 65536 := by
    rw [hr] at hsize
    exact hsize
  constructor
  · intro i j hij hj hwi hwj
    refine ⟨newGlyphEntry F W i, newGlyphEntry F W j,
      compact_newGlyphs_getElem? F W r h i (by omega),
      compact_newGlyphs_getElem? F W r h j hj, ?_⟩
    have h1 := cursorAt_mono F W i j (by omega)
    have h2 := cursorAt_mono F W j F.Glyphs.length (by omega)
    rw [entry_offset_of_wanted F W i hwi, entry_offset_of_wanted F W j hwj,
      Nat.mod_eq_of_lt (by omega), Nat.mod_eq_of_lt (by omega)]
    exact h1
  · intro i hi hw
    refine ⟨newGlyphEntry F W i, compact_newGlyphs_getElem? F W r h i hi, ?_⟩
    rw [entry_of_dropped F W i hw]
    rfl

/-- C12, witness of `wanted_offsets_monotone`: `smallFont`, wanted codes 32 and 34. -/
theorem wanted_offsets_monotone_witness :
    compact smallFont [32, 34] = .ok smallResult ∧ smallResult.newBitmapOffset < 65536 ∧
    ((∀ i j, i < j → j < smallFont.Glyphs.length → wantedGlyph [32, 34] i →
      wantedGlyph [32, 34] j →
      ∃ gi gj, smallResult.newGlyphs[i]? = some gi ∧ smallResult.newGlyphs[j]? = some gj ∧
        gi.bitmapOffset ≤ gj.bitmapOffset) ∧
    (∀ i, i < smallFont.Glyphs.length → ¬ wantedGlyph [32, 34] i →
      ∃ g, smallResult.newGlyphs[i]? = some g ∧ g.bitmapOffset = 0)) :=
  ⟨by decide, by decide,
    wanted_offsets_monotone smallFont [32, 34] smallResult (by decide) (by decide)⟩

/-- C12, counterexample to the claim as stated: in the table that the pass
produces on `smallFont` for the wanted codes 32 and 34, glyph 0 (wanted) has
bitmapOffset 1 and the later glyph 1 (dropped) has bitmapOffset 0. -/
theorem offsets_monotone_counterexample :
    compact smallFont [32, 34] = .ok smallResult ∧
    ∃ g0 g1, smallResult.newGlyphs[0]? = some g0 ∧ smallResult.newGlyphs[1]? = some g1 ∧
      g0.bitmapOffset = 1 ∧ g1.bitmapOffset = 0 ∧ ¬ g0.bitmapOffset ≤ g1.bitmapOffset :=
  ⟨by decide, sampleGlyph 1, droppedGlyph, rfl, rfl, rfl, rfl, by decide⟩

/-! ### C13: the reserved byte -/

theorem specRun_newBitmaps_head (F : SourceFont) (W : List Nat) (k : Nat) :
    (specRun F W k).newBitmaps[0]? = some 0 := by
  obtain ⟨tail, ht⟩ := specRun_newBitmaps_append F W 0 k (Nat.zero_le _)
  rw [ht, specRun_zero]
  simp [initState]

theorem cursorAt_pos (F : SourceFont) (W : List Nat) (k : Nat) : 1 ≤ cursorAt F W k := by
  have := cursorAt_mono F W 0 k (Nat.zero_le _)
  rw [cursorAt_zero] at this
  exact this

/-- C13 (amended): when the pass completes, the compacted buffer has the value 0
at offset 0, every dropped glyph has bitmapOffset 0, and every wanted glyph is
placed at a write cursor of at least 1, so no retained glyph's bytes start at
the reserved byte; its stored bitmapOffset is that cursor modulo 65536, hence at
least 1 whenever the cursor is below 65536. -/
theorem reserved_byte_invariant (F : SourceFont) (W : List Nat) (r : PassState)
    (h : compact F W = .ok r) :
    r.newBitmaps[0]? = some 0 ∧
    (∀ i, i < F.Glyphs.length → ¬ wantedGlyph W i →
      ∃ g, r.newGlyphs[i]? = some g ∧ g.bitmapOffset = 0) ∧
    (∀ i, i < F.Glyphs.length → wantedGlyph W i →
      ∃ g, r.newGlyphs[i]? = some g ∧ 1 ≤ cursorAt F W i ∧
        g.bitmapOffset = cursorAt F W i % 65536 ∧
        (cursorAt F W i < 65536 → 1 ≤ g.bitmapOffset)) := by
  have hr := compact_ok_eq F W r h
  refine ⟨?_, ?_, ?_⟩
  · rw [hr]
    exact specRun_newBitmaps_head F W _
  · intro i hi hw
    refine ⟨newGlyphEntry F W i, compact_newGlyphs_getElem? F W r h i hi, ?_⟩
    rw [entry_of_dropped F W i hw]
    rfl
  · intro i hi hw
    have hpos := cursorAt_pos F W i
    refine ⟨newGlyphEntry F W i, compact_newGlyphs_getElem? F W r h i hi, hpos,
      entry_offset_of_wanted F W i hw, ?_⟩
    intro hlt
    rw [entry_offset_of_wanted F W i hw, Nat.mod_eq_of_lt hlt]
    exact hpos

/-- C13, witness of `reserved_byte_invariant`: `smallFont`, wanted codes 32 and 34. -/
theorem reserved_byte_invariant_witness :
    compact smallFont [32, 34] = .ok smallResult ∧
    (smallResult.newBitmaps[0]? = some 0 ∧
    (∀ i, i < smallFont.Glyphs.length → ¬ wantedGlyph [32, 34] i →
      ∃ g, smallResult.newGlyphs[i]? = some g ∧ g.bitmapOffset = 0) ∧
    (∀ i, i < smallFont.Glyphs.length → wantedGlyph [32, 34] i →
      ∃ g, smallResult.newGlyphs[i]? = some g ∧ 1 ≤ cursorAt smallFont [32, 34] i ∧
        g.bitmapOffset = cursorAt smallFont [32, 34] i % 65536 ∧
        (cursorAt smallFont [32, 34] i < 65536 → 1 ≤ g.bitmapOffset))) :=
  ⟨by decide, reserved_byte_invariant smallFont [32, 34] smallResult (by decide)⟩

/-- C13, counterexample to the claim as stated: on `chainFont` with the wanted
codes 32 and 33 the pass completes without leaving the source arrays or the
allocation of `newBitmaps`, and the wanted glyph 1 has the stored bitmapOffset
0, not an offset of at least 1. -/
theorem wanted_offset_zero_counterexample :
    ∃ r g1, compact chainFont [32, 33] = .ok r ∧ writesInBounds chainFont r ∧
      wantedGlyph [32, 33] 1 ∧ r.newGlyphs[1]? = some g1 ∧ g1.bitmapOffset = 0 ∧
      ¬ 1 ≤ g1.bitmapOffset := by
  have hr := chainFont_run
  have hb : writesInBounds chainFont (specRun chainFont [32, 33] chainFont.Glyphs.length) := by
    show cursorAt chainFont [32, 33] 3 ≤ bigBitmaps.length
    rw [chainFont_final_cursor, bigBitmaps_length]
    decide
  refine ⟨_, newGlyphEntry chainFont [32, 33] 1, hr, hb, by decide,
    compact_newGlyphs_getElem? _ _ _ hr 1 (by decide), chainFont_entry1, ?_⟩
  rw [chainFont_entry1]
  decide

/-! ### C14: the glyph section -/

theorem readNewGlyph_nat (heapBelow : Option GFXglyph) (gl : List GFXglyph) (k : Nat)
    (hk : k < gl.length) : readNewGlyph heapBelow gl (k : Int) = .ok gl[k] := by
  unfold readNewGlyph
  have h1 : ¬ ((k : Int) = -1) := by omega
  have h2 : ¬ ((k : Int) < 0) := by omega
  rw [if_neg h1, if_neg h2, Int.toNat_ofNat, List.getElem?_eq_getElem hk]

theorem emitGlyphLoop_rows (heapBelow : Option GFXglyph) (gl : List GFXglyph) :
    ∀ (todo i : Nat) (out : String), i + todo ≤ gl.length →
      emitGlyphLoop heapBelow gl todo (i : Int) out =
        (out ++ glyphRows i ((gl.drop i).take todo), none) := by
  intro todo
  induction todo with
  | zero =>
    intro i out _
    simp [emitGlyphLoop, glyphRows]
  | succ t ih =>
    intro i out h
    have hi : i < gl.length := by omega
    have hd : (gl.drop i).take (t + 1) = gl[i] :: (gl.drop (i + 1)).take t := by
      rw [List.drop_eq_getElem_cons hi, List.take_succ_cons]
    rw [emitGlyphLoop, readNewGlyph_nat heapBelow gl i hi]
    simp only []
    have hc : ((i : Int) + 1) = ((i + 1 : Nat) : Int) := by push_cast; rfl
    rw [hc, ih (i + 1) _ (by omega), hd]
    simp only [glyphRows, String.append_assoc]

/-- C14: when the pass completes and at least one glyph is wanted, the glyph
array declaration that `main` prints (between the bitmap declaration and the
descriptor) lists exactly the records of the compacted glyph table at the
indices `firstUseableChar .. lastUseableChar`, in ascending order, that is
`lastUseableChar - firstUseableChar + 1` records, the record of index `i`
followed by the comment for the code `i + 32`; and `main` returns 0. -/
theorem emitted_glyph_range (F : SourceFont) (W : List Nat) (heapBelow : Option GFXglyph)
    (r : PassState) (h : compact F W = .ok r)
    (hex : ∃ i, i < F.Glyphs.length ∧ wantedGlyph W i) :
    ∃ (f l : Nat) (last : GFXglyph),
      r.firstUseableChar = (f : Int) ∧ r.lastUseableChar = (l : Int) ∧
      f ≤ l ∧ l < F.Glyphs.length ∧
      r.newGlyphs[l]? = some last ∧
      ((r.newGlyphs.drop f).take (l - f)).length + 1 = l - f + 1 ∧
      (r.newGlyphs.drop f).take (l - f + 1) = (r.newGlyphs.drop f).take (l - f) ++ [last] ∧
      (main F W heapBelow).stdout =
        emitBitmaps r ++ glyphHeader ++
          glyphSection f ((r.newGlyphs.drop f).take (l - f)) last ++ emitDescriptor r ∧
      (main F W heapBelow).status = .ok 0 := by
  have hr := compact_ok_eq F W r h
  obtain ⟨f, l, hfl, hl, hfirst, hlast, _, _⟩ := wanted_extents F W F.Glyphs.length hex
  rw [← hr] at hfirst hlast
  have hlen : r.newGlyphs.length = F.Glyphs.length := by
    rw [hr]
    exact specRun_newGlyphs_length F W _
  have hll : l < r.newGlyphs.length := by omega
  have htake : ((r.newGlyphs.drop f).take (l - f)).length = l - f := by
    rw [List.length_take, List.length_drop]
    omega
  have hsplit : (r.newGlyphs.drop f).take (l - f + 1) =
      (r.newGlyphs.drop f).take (l - f) ++ [r.newGlyphs[l]] := by
    rw [List.take_add, List.drop_drop]
    have hfl2 : f + (l - f) = l := by omega
    rw [hfl2, List.drop_eq_getElem_cons hll]
    rfl
  have hmain : main F W heapBelow =
      { stdout := emitBitmaps r ++ glyphHeader ++
          glyphSection f ((r.newGlyphs.drop f).take (l - f)) r.newGlyphs[l] ++
          emitDescriptor r,
        status := .ok 0 } := by
    unfold main
    rw [h]
    simp only []
    have htodo : (r.lastUseableChar - r.firstUseableChar).toNat = l - f := by
      rw [hfirst, hlast]
      omega
    have hidx : r.firstUseableChar + ((l - f : Nat) : Int) = (l : Int) := by
      rw [hfirst]
      omega
    rw [htodo, hidx, hfirst, emitGlyphLoop_rows heapBelow r.newGlyphs (l - f) f _ (by omega)]
    simp only []
    rw [readNewGlyph_nat heapBelow r.newGlyphs l hll]
    simp only [glyphSection, htake, String.append_assoc]
    have hfl2 : f + (l - f) = l := by omega
    rw [hfl2]
  refine ⟨f, l, r.newGlyphs[l], hfirst, hlast, hfl, hl, List.getElem?_eq_getElem hll,
    by rw [htake], hsplit, ?_, ?_⟩
  · rw [hmain]
  · rw [hmain]

set_option maxRecDepth 100000 in
/-- C14, witness of `emitted_glyph_range`: `smallFont`, wanted codes 32 and 34; the
three records of the indices 0, 1, 2 are printed. -/
theorem emitted_glyph_range_witness :
    compact smallFont [32, 34] = .ok smallResult ∧
    (∃ i, i < smallFont.Glyphs.length ∧ wantedGlyph [32, 34] i) ∧
    glyphSection 0 [sampleGlyph 1, droppedGlyph] (sampleGlyph 3) =
      "\x7b    1,    3,    4,    5,   -1,   -7 \x7d, // 0x20 \x27 \x27\n" ++
      "\x7b    0,    0,    0,   13,    0,    1 \x7d, // 0x21 \x27!\x27\n" ++
      "\x7b    3,    3,    4,    5,   -1,   -7 \x7d \x7d; // 0x22 \x27\x22\x27\n\n" ∧
    ∃ (f l : Nat) (last : GFXglyph),
      smallResult.firstUseableChar = (f : Int) ∧ smallResult.lastUseableChar = (l : Int) ∧
      f ≤ l ∧ l < smallFont.Glyphs.length ∧
      smallResult.newGlyphs[l]? = some last ∧
      ((smallResult.newGlyphs.drop f).take (l - f)).length + 1 = l - f + 1 ∧
      (smallResult.newGlyphs.drop f).take (l - f + 1) =
        (smallResult.newGlyphs.drop f).take (l - f) ++ [last] ∧
      (main smallFont [32, 34] none).stdout =
        emitBitmaps smallResult ++ glyphHeader ++
          glyphSection f ((smallResult.newGlyphs.drop f).take (l - f)) last ++
          emitDescriptor smallResult ∧
      (main smallFont [32, 34] none).status = .ok 0 :=
  ⟨by decide, ⟨0, by decide, by decide⟩, by decide,
    emitted_glyph_range smallFont [32, 34] none smallResult (by decide)
      ⟨0, by decide, by decide⟩⟩

/-! ### C15: the byte array declaration -/

theorem fmtX02_byte (b : Nat) (hb : b < 256) : "0x" ++ fmtX02 (b : Int) = hexByte b := by
  unfold fmtX02 hexByte
  have hu : ((b : Int) % 4294967296).toNat = b := by omega
  simp only [hu, if_pos hb]
  rfl

theorem hexDigit_mem (d : Nat) (hd : d < 16) : hexDigit d ∈ "0123456789ABCDEF".toList := by
  interval_cases d <;> decide

theorem emitBitmapLoop_body :
    ∀ (rest pre : List Nat), (∀ b ∈ rest, b < 256) →
      emitBitmapLoop (pre ++ rest) (List.range' pre.length rest.length) ++ "0x00 \x7d;\n\n" =
        byteArrayBody pre.length (rest.map hexByte) "0x00" := by
  intro rest
  induction rest with
  | nil =>
    intro pre _
    simp [emitBitmapLoop, byteArrayBody, List.range']
  | cons b rest ih =>
    intro pre hb
    have hb0 : b < 256 := hb b (List.mem_cons_self _ _)
    have hget : (pre ++ b :: rest).getD pre.length 0 = b := by
      rw [List.getD_eq_getElem?_getD, List.getElem?_append_right (Nat.le_refl _),
        Nat.sub_self]
      simp
    have hih := ih (pre ++ [b]) (fun x hx => hb x (List.mem_cons_of_mem _ hx))
    rw [List.length_append, List.length_singleton, List.append_assoc,
      List.singleton_append] at hih
    rw [List.length_cons, List.range'_succ, emitBitmapLoop, hget, List.map_cons, byteArrayBody,
      ← hih, fmtX02_byte b hb0]
    simp only [String.append_assoc]

theorem specRun_bytes (F : SourceFont) (W : List Nat) (k : Nat) :
    ∀ b, b ∈ (specRun F W k).newBitmaps → b = 0 ∨ b ∈ F.Bitmaps := by
  induction k with
  | zero =>
    intro b hb
    left
    simpa [specRun_zero, initState] using hb
  | succ k ih =>
    intro b hb
    rw [specRun_newBitmaps_succ, List.mem_append] at hb
    rcases hb with h1 | h2
    · exact ih b h1
    · right
      by_cases hw : wantedGlyph W k
      · rw [if_pos hw] at h2
        exact List.mem_of_mem_drop (List.mem_of_mem_take h2)
      · rw [if_neg hw] at h2
        exact absurd h2 (List.not_mem_nil _)

/-- C15: when the pass completes on a font whose bitmap bytes are bytes (below
256), the byte array declaration that `emitBitmaps` prints lists the compacted
bytes of the offsets `0 .. newBitmapOffset - 1` in order, each as `0x` followed
by two uppercase hexadecimal digits, and then one more element `0x00`; so the
emitted array has exactly one element more than the compacted buffer. -/
theorem emitted_byte_array (F : SourceFont) (W : List Nat) (r : PassState)
    (h : compact F W = .ok r) (hbytes : ∀ b ∈ F.Bitmaps, b < 256) :
    emitBitmaps r = bitmapHeader ++ byteArrayBody 0 (r.newBitmaps.map hexByte) "0x00" ∧
    (r.newBitmaps.map hexByte).length + 1 = r.newBitmapOffset + 1 ∧
    (∀ b ∈ r.newBitmaps,
      hexDigit (b / 16) ∈ "0123456789ABCDEF".toList ∧
      hexDigit (b % 16) ∈ "0123456789ABCDEF".toList) := by
  have hr := compact_ok_eq F W r h
  have hlen : r.newBitmaps.length = r.newBitmapOffset := by
    rw [hr]
    exact specRun_newBitmaps_length F W _ (compact_ok_safe F W r h)
  have hlt : ∀ b ∈ r.newBitmaps, b < 256 := by
    intro b hb
    rw [hr] at hb
    rcases specRun_bytes F W _ b hb with h0 | h1
    · omega
    · exact hbytes b h1
  refine ⟨?_, by rw [List.length_map, hlen], ?_⟩
  · have hbody := emitBitmapLoop_body r.newBitmaps [] hlt
    rw [List.nil_append, List.length_nil] at hbody
    unfold emitBitmaps bitmapHeader
    rw [← hlen, List.range_eq_range', String.append_assoc, hbody]
  · intro b hb
    have := hlt b hb
    exact ⟨hexDigit_mem _ (by omega), hexDigit_mem _ (by omega)⟩

set_option maxRecDepth 100000 in
/-- C15, witness of `emitted_byte_array`: `smallFont`, wanted codes 32 and 34; five
compacted bytes, six emitted elements. -/
theorem emitted_byte_array_witness :
    compact smallFont [32, 34] = .ok smallResult ∧ (∀ b ∈ smallFont.Bitmaps, b < 256) ∧
    emitBitmaps smallResult =
      "const uint8_t FreeSansBold24pt7bBitmaps[] PROGMEM = \x7b\n" ++
      "0x00, 0x0A, 0x0B, 0x0D, 0x0E, 0x00 \x7d;\n\n" ∧
    (emitBitmaps smallResult =
      bitmapHeader ++ byteArrayBody 0 (smallResult.newBitmaps.map hexByte) "0x00" ∧
    (smallResult.newBitmaps.map hexByte).length + 1 = smallResult.newBitmapOffset + 1 ∧
    (∀ b ∈ smallResult.newBitmaps,
      hexDigit (b / 16) ∈ "0123456789ABCDEF".toList ∧
      hexDigit (b % 16) ∈ "0123456789ABCDEF".toList)) :=
  ⟨by decide, by decide, by decide,
    emitted_byte_array smallFont [32, 34] smallResult (by decide) (by decide)⟩

/-! ### C16: rows of the byte array declaration -/

set_option maxRecDepth 100000 in
/-- C16, the code at the failing input: on `rowFont` with the wanted code 32 the
pass compacts 25 bytes, and the byte array declaration breaks the line after the
13th and after the 25th value: the first row holds 13 values, not 12. -/
theorem first_row_has_thirteen_values :
    compact rowFont [32] = .ok rowResult ∧ writesInBounds rowFont rowResult ∧
    emitBitmaps rowResult =
      "const uint8_t FreeSansBold24pt7bBitmaps[] PROGMEM = \x7b\n" ++
      "0x00, 0x01, 0x02, 0x03, 0x04, 0x05, 0x06, 0x07, 0x08, 0x09, 0x0A, 0x0B, 0x0C, \n" ++
      "0x0D, 0x0E, 0x0F, 0x10, 0x11, 0x12, 0x13, 0x14, 0x15, 0x16, 0x17, 0x18, \n" ++
      "0x00 \x7d;\n\n" := by
  decide

/-! ### C17: the upper bound of the last glyph -/

/-- C17, the code at the failing input: on `lastFont` (two glyphs, three bitmap
bytes, the last glyph owning the byte at offset 2) with the wanted code 33 the
pass reads the table entry of index 2, which the table does not have; when the
cell behind the table holds a glyph with offset 0, the pass takes that offset,
not the bitmap length 3, as the upper bound and copies nothing. -/
theorem last_glyph_reads_past_table :
    oldGlyphArraySize lastFont = 2 ∧ wantedGlyph [33] 1 ∧
    compact lastFont [33] = .error (.glyphRead 2) ∧
    compact { lastFont with sentinel := some (sampleGlyph 0) } [33] =
      .ok { newBitmaps := [0], newGlyphs := [droppedGlyph, sampleGlyph 1],
            newBitmapOffset := 1, firstUseableChar := 1, lastUseableChar := 1 } ∧
    lastFont.Bitmaps.length = 3 ∧ lastFont.Bitmaps[2]? = some 12 := by
  decide

/-! ### C18: nothing wanted -/

theorem emitDescriptor_nothingWanted (n : Nat) :
    emitDescriptor (nothingWanted n) = emptyRunDescriptor := by
  show emitDescriptor (nothingWanted 0) = emptyRunDescriptor
  decide

/-- C18: when the character code of no glyph is in the wanted set (the code of
glyph `i` being the char `(i + 32) % 256` handed to the selector; in particular
when the wanted set is empty), the pass completes with `firstUseableChar` and
`lastUseableChar` both `-1`, every entry of the compacted table the dropped
glyph, and a compacted buffer of length 1; the descriptor that `emitDescriptor`
prints for this state gives `0x1F, 0x1F`, and a run in which the read of
`newGlyphs[-1]` yields a glyph prints that descriptor and returns 0. -/
theorem nothing_wanted_extents (F : SourceFont) (W : List Nat) (heapBelow : Option GFXglyph)
    (hno : ∀ i, i < F.Glyphs.length → (i + 32) % 256 ∉ wantedSet W) :
    ∃ r, compact F W = .ok r ∧
      r.firstUseableChar = -1 ∧ r.lastUseableChar = -1 ∧
      r.newGlyphs.length = F.Glyphs.length ∧ (∀ g ∈ r.newGlyphs, g = droppedGlyph) ∧
      r.newBitmaps = [0] ∧ r.newBitmaps.length = 1 ∧ r.newBitmapOffset = 1 ∧
      r.firstUseableChar + 32 = 31 ∧ r.lastUseableChar + 32 = 31 ∧
      emitDescriptor r = emptyRunDescriptor ∧
      (∀ g, heapBelow = some g →
        (main F W heapBelow).stdout =
          emptyRunText ++ (glyphLastRow g (-1) ++ emptyRunDescriptor) ∧
        (main F W heapBelow).status = .ok 0) := by
  have hn : ∀ i, i < F.Glyphs.length → ¬ wantedGlyph W i :=
    fun i hi hw => hno i hi ((wantedGlyph_iff W i).mp hw)
  refine ⟨nothingWanted F.Glyphs.length, compact_none_wanted F W hn, rfl, rfl, ?_, ?_, rfl,
    rfl, rfl, rfl, rfl, emitDescriptor_nothingWanted _, ?_⟩
  · simp [nothingWanted]
  · intro g hg
    simp only [nothingWanted, List.mem_replicate] at hg
    exact hg.2
  · intro g hg
    rw [main_none_wanted F W heapBelow hn, hg]
    simp [emitDescriptor_nothingWanted]

/-- C18, witness of `nothing_wanted_extents`: `smallFont` with the wanted string
`"A"` (code 65, no glyph of the four-entry table). -/
theorem nothing_wanted_extents_witness :
    (∀ i, i < smallFont.Glyphs.length → (i + 32) % 256 ∉ wantedSet [65]) ∧
    ∃ r, compact smallFont [65] = .ok r ∧
      r.firstUseableChar = -1 ∧ r.lastUseableChar = -1 ∧
      r.newGlyphs.length = smallFont.Glyphs.length ∧ (∀ g ∈ r.newGlyphs, g = droppedGlyph) ∧
      r.newBitmaps = [0] ∧ r.newBitmaps.length = 1 ∧ r.newBitmapOffset = 1 ∧
      r.firstUseableChar + 32 = 31 ∧ r.lastUseableChar + 32 = 31 ∧
      emitDescriptor r = emptyRunDescriptor ∧
      (∀ g, some droppedGlyph = some g →
        (main smallFont [65] (some droppedGlyph)).stdout =
          emptyRunText ++ (glyphLastRow g (-1) ++ emptyRunDescriptor) ∧
        (main smallFont [65] (some droppedGlyph)).status = .ok 0) :=
  ⟨by decide, nothing_wanted_extents smallFont [65] (some droppedGlyph) (by decide)⟩

/-! ### C19: yAdvance -/

/-- C19 (amended): the descriptor that the program prints has the literal 56 as
its yAdvance, whatever the source font; it is the yAdvance of the source
descriptor `D` when that is 56, as for `FreeSansBold24pt7b`. -/
theorem yAdvance_is_literal (D : GFXfont) (st : PassState) (hD : D.yAdvance = 56) :
    emitDescriptor st = descriptorCopying 56 st ∧
      emitDescriptor st = descriptorCopying D.yAdvance st := by
  have h56 : emitDescriptor st = descriptorCopying 56 st := by
    have ht : ", " ++ toString (56 : Nat) ++ " \x7d;\n" = ", 56 \x7d;\n" := by decide
    unfold emitDescriptor descriptorCopying
    simp only [String.append_assoc] at ht ⊢
    rw [ht]
  rw [hD]
  exact ⟨h56, h56⟩

/-- C19, witness of `yAdvance_is_literal`: the descriptor of `FreeSansBold24pt7b`
and the state `smallResult`. -/
theorem yAdvance_is_literal_witness :
    referenceDescriptor.yAdvance = 56 ∧
    (emitDescriptor smallResult = descriptorCopying 56 smallResult ∧
      emitDescriptor smallResult = descriptorCopying referenceDescriptor.yAdvance smallResult) :=
  ⟨rfl, yAdvance_is_literal referenceDescriptor smallResult rfl⟩

set_option maxRecDepth 100000 in
/-- C19, counterexample to the claim as stated: for a source descriptor with
yAdvance 20 the descriptor printed after the pass on `smallFont` still ends in
`56`; it is not the text with the source yAdvance copied through. -/
theorem yAdvance_counterexample :
    otherDescriptor.yAdvance = 20 ∧
    compact smallFont [32, 34] = .ok smallResult ∧
    emitDescriptor smallResult =
      "const GFXfont FreeSansBold24pt7b PROGMEM = \x7b\n" ++
      "(uint8_t  *)FreeSansBold24pt7bBitmaps,\n" ++
      "(GFXglyph *)FreeSansBold24pt7bGlyphs,\n" ++
      "0x20, 0x22, 56 \x7d;\n" ∧
    emitDescriptor smallResult ≠ descriptorCopying otherDescriptor.yAdvance smallResult := by
  decide

/-! ### C20: a larger wanted set -/

theorem cursorAt_le_of_subset (F : SourceFont) (W V : List Nat)
    (hsub : ∀ i, wantedGlyph W i → wantedGlyph V i) (k : Nat) :
    cursorAt F W k ≤ cursorAt F V k := by
  induction k with
  | zero => exact Nat.le_refl _
  | succ k ih =>
    rw [cursorAt_succ, cursorAt_succ]
    by_cases hw : wantedGlyph W k
    · rw [if_pos hw, if_pos (hsub k hw)]
      omega
    · rw [if_neg hw]
      omega

/-- C20: when every character of `W` also occurs in `V` and the pass completes
for `V`, the pass completes for `W` as well and its compacted bitmap (final
cursor, number of cells of the buffer) is at most as long as the one for `V`. -/
theorem shrinking_monotone (F : SourceFont) (W V : List Nat) (rV : PassState)
    (hsub : ∀ x, x ∈ wantedSet W → x ∈ wantedSet V) (hV : compact F V = .ok rV) :
    ∃ rW, compact F W = .ok rW ∧
      rW.newBitmapOffset ≤ rV.newBitmapOffset ∧
      rW.newBitmaps.length ≤ rV.newBitmaps.length := by
  have hw : ∀ i, wantedGlyph W i → wantedGlyph V i := fun i h =>
    (wantedGlyph_iff V i).mpr (hsub _ ((wantedGlyph_iff W i).mp h))
  have hsafeV := compact_ok_safe F V rV hV
  have hsafeW : ∀ i, i < F.Glyphs.length → wantedGlyph W i → stepSafe F i :=
    fun i hi h => hsafeV i hi (hw i h)
  have hrV := compact_ok_eq F V rV hV
  have hle := cursorAt_le_of_subset F W V hw F.Glyphs.length
  have hwriteW : ∀ i, i < F.Glyphs.length → wantedGlyph W i → writeSafe F W i := by
    intro i hi h
    have hc := cursorAt_le_of_subset F W V hw i
    rcases compact_ok_write F V rV hV i hi (hw i h) with h0 | h1
    · exact Or.inl h0
    · exact Or.inr (by omega)
  refine ⟨specRun F W F.Glyphs.length,
    (compact_eq_ok_iff F W _).mpr ⟨fun i hi h => ⟨hsafeW i hi h, hwriteW i hi h⟩, rfl⟩, ?_, ?_⟩
  · rw [hrV]
    exact hle
  · rw [hrV, specRun_newBitmaps_length F W _ hsafeW, specRun_newBitmaps_length F V _ hsafeV]
    exact hle

/-- C20, witness of `shrinking_monotone`: `smallFont`, the wanted string `" "`
inside the wanted string `" \""`. -/
theorem shrinking_monotone_witness :
    (∀ x, x ∈ wantedSet [32] → x ∈ wantedSet [32, 34]) ∧
    compact smallFont [32, 34] = .ok smallResult ∧
    ∃ rW, compact smallFont [32] = .ok rW ∧
      rW.newBitmapOffset ≤ smallResult.newBitmapOffset ∧
      rW.newBitmaps.length ≤ smallResult.newBitmaps.length :=
  ⟨by decide, by decide,
    shrinking_monotone smallFont [32] [32, 34] smallResult (by decide) (by decide)⟩

end FontShrink
